import Mathlib

/-!
# gcli: command resolution and lifecycle dispatch

A shallow embedding of `app_run.go` (name resolution, `prepareRun`, `Run`,
`doRunCmd`, `doRunFunc`, `Exec`, `showCommandHelp`, `findSimilarCmd`), of the
hook table and the help replacer of `ext.go`, and of the name validators of
`helper/utils.go`.

Conventions of the embedding:

* a Go `string` is its sequence of bytes, `len` is `List.length`;
* a Go `map[string]V` is an association list read with `Map.get?`; the order in
  which `range` visits a map is not fixed by Go, so it is an explicit
  parameter (`MapOrder`);
* everything the program prints, every lifecycle event it fires and every
  command body it calls is appended to a trace of `Effect`s;
* a named result such as `(code int)` starts at its zero value;
* a nil-pointer dereference (a panic) is the result `none`.
-/

namespace Gcli

/-! ## Strings -/

/-- A Go string: a read-only sequence of bytes. -/
abbrev GoString := List UInt8

/-- The bytes (UTF-8) of a string literal. -/
def str (s : String) : GoString := s.toList.flatMap String.utf8EncodeChar

/-- A Go `error` value that is not nil, identified by its message. -/
abbrev GoError := GoString

namespace strings

/-- Whether `pre` is an initial segment of `s`. -/
def startsWith : GoString → GoString → Bool
  | _, [] => true
  | [], _ :: _ => false
  | b :: s, p :: pre => b == p && startsWith s pre

/-- Go `strings.Contains(s, substr)`: `substr` occurs in `s` at some offset. -/
def Contains : GoString → GoString → Bool
  | [], substr => startsWith [] substr
  | b :: s, substr => startsWith (b :: s) substr || Contains s substr

end strings

/-! ## Regular expressions

The three patterns of `helper/utils.go` are anchored sequences of character
classes, the last one under `*`. Their classes hold ASCII bytes only, so a
byte above 127 (part of a longer rune, or invalid) matches none of them and
matching byte by byte agrees with matching rune by rune. -/

namespace regexp

/-- A character class `[...]`: a union of inclusive byte ranges. -/
abbrev Class := List (UInt8 × UInt8)

/-- Whether the byte `b` is in the class. -/
def Class.mem (c : Class) (b : UInt8) : Bool := c.any (fun r => r.1 ≤ b && b ≤ r.2)

/-- One item of a pattern: a class, or a class under `*`. -/
inductive Item where
  | one (c : Class)
  | star (c : Class)

/-- The places in the pattern a match can be at after reading the byte `b`,
starting from the place `items`. -/
def step : List Item → UInt8 → List (List Item)
  | [], _ => []
  | Item.one c :: rest, b => if c.mem b then [rest] else []
  | Item.star c :: rest, b => (if c.mem b then [Item.star c :: rest] else []) ++ step rest b

/-- Whether the rest of the pattern matches the empty string (the anchor `$`). -/
def atEnd : List Item → Bool
  | [] => true
  | Item.one _ :: _ => false
  | Item.star _ :: rest => atEnd rest

/-- Run the pattern over the input from a set of places. -/
def run : List (List Item) → GoString → Bool
  | places, [] => places.any atEnd
  | places, b :: s => run (places.flatMap (fun st => step st b)) s

/-- The result of `MatchString` for the pattern `^items$`: the whole input is matched. -/
def MatchString (items : List Item) (s : GoString) : Bool := run [items] s

/-- The class `[a-zA-Z]`. -/
def letters : Class := [(97, 122), (65, 90)]

/-- The class `\w`, which is `[0-9A-Za-z_]`. -/
def word : Class := [(48, 57), (65, 90), (97, 122), (95, 95)]

end regexp

/-! ## helper/utils.go: name validators -/

namespace helper

/-- An ASCII letter. -/
def isLetter (b : UInt8) : Bool := (97 ≤ b && b ≤ 122) || (65 ≤ b && b ≤ 90)

/-- An ASCII letter, digit or underscore. -/
def isWord (b : UInt8) : Bool := isLetter b || (48 ≤ b && b ≤ 57) || b == 95

/-- The pattern `regGoodName`, `^[a-zA-Z][\w-]*$`. -/
def goodName : List regexp.Item :=
  [regexp.Item.one regexp.letters, regexp.Item.star (regexp.word ++ [(45, 45)])]

/-- The pattern `regGoodCmdName`, `^[a-zA-Z][\w-]*$`. -/
def goodCmdName : List regexp.Item :=
  [regexp.Item.one regexp.letters, regexp.Item.star (regexp.word ++ [(45, 45)])]

/-- The pattern `regGoodCmdId`, `^[a-zA-Z][\w:-]*$`. -/
def goodCmdId : List regexp.Item :=
  [regexp.Item.one regexp.letters, regexp.Item.star (regexp.word ++ [(58, 58), (45, 45)])]

/-- The source function `IsGoodName`: `goodName.MatchString(name)`. -/
def IsGoodName (name : GoString) : Bool := regexp.MatchString goodName name

/-- The source function `IsGoodCmdName`: `goodCmdName.MatchString(name)`. -/
def IsGoodCmdName (name : GoString) : Bool := regexp.MatchString goodCmdName name

/-- The source function `IsGoodCmdId`: `goodCmdId.MatchString(name)`. -/
def IsGoodCmdId (name : GoString) : Bool := regexp.MatchString goodCmdId name

/-- The set of names the spec describes: not empty, an ASCII letter first, then
ASCII letters, digits, underscores and hyphens. -/
def SpecGoodName (name : GoString) : Prop :=
  ∃ b rest, name = b :: rest ∧ isLetter b = true ∧ ∀ c ∈ rest, isWord c = true ∨ c = 45

/-- The set of command identifiers the spec describes: as `SpecGoodName`, with
the colon allowed after the first character. -/
def SpecGoodCmdId (name : GoString) : Prop :=
  ∃ b rest, name = b :: rest ∧ isLetter b = true ∧
    ∀ c ∈ rest, isWord c = true ∨ c = 45 ∨ c = 58

end helper

/-- Modelled from the spec: `isValidCmdName` is called by `app_run.go` but is
not defined in the files at hand; it is the name-pattern validity check
("starts with a letter, followed by letters/digits/underscore/hyphen"), which
is `helper.IsGoodCmdName`. -/
def isValidCmdName (name : GoString) : Bool := helper.IsGoodCmdName name

/-- Modelled from the spec: the reserved first-token keyword, the literal
string "help" (the constant `HelpCommand` is not defined in the files at hand). -/
def HelpCommand : GoString := str "help"

/-- The result codes `ERR` and `GOON`. Their declarations are not in the files
at hand, so they are parameters; the spec fixes `OK = 0`, `ERR` nonzero and
`GOON` distinct from every real exit code. -/
structure Consts where
  ERR : Int
  GOON : Int

/-! ## Maps -/

namespace Map

/-- The read `m[k]` of a Go map kept as an association list. -/
def get? {V : Type} : List (GoString × V) → GoString → Option V
  | [], _ => none
  | (k, v) :: m, key => if k = key then some v else get? m key

/-- The keys of a map. -/
def keys {V : Type} (m : List (GoString × V)) : List GoString := m.map Prod.fst

/-- The write `m[key] = v`: the entry of `key` is replaced, or added when there
is none. -/
def set {V : Type} : List (GoString × V) → GoString → V → List (GoString × V)
  | [], key, v => [(key, v)]
  | (k, w) :: m, key, v => if k = key then (k, v) :: m else (k, w) :: set m key v

end Map

/-- The order in which `range` visits the keys of the two tables that
`findSimilarCmd` walks. Go leaves it unspecified: each field reorders the keys
of a table, and `MapOrder.Valid` says it only reorders them. -/
structure MapOrder where
  names : List GoString → List GoString
  aliases : List GoString → List GoString

/-- Both fields only permute the keys they are given. -/
def MapOrder.Valid (o : MapOrder) : Prop :=
  (∀ l, (o.names l).Perm l) ∧ (∀ l, (o.aliases l).Perm l)

/-! ## Data model -/

/-- A command handle: what `cmd.innerDispatch(args)` and
`cmd.innerExecute(args, igrErrHelp)` return, `none` for a nil error. -/
structure Command where
  innerDispatch : List GoString → Option GoError
  innerExecute : List GoString → Bool → Option GoError

/-- The global options read by `parseGlobalOpts` (`gOpts`). -/
structure GlobalOpts where
  showHelp : Bool
  showVer : Bool
  NoColor : Bool
  inCompletion : Bool
deriving DecidableEq, Repr

/-- What the flag library reports for an argument vector: whether
`app.core.parseGlobalOpts(args)` succeeded, the options it set and the
arguments left over (`app.GlobalFlags().FSetArgs()`). -/
structure CoreParse where
  ok : Bool
  gOpts : GlobalOpts
  FSetArgs : List GoString
deriving DecidableEq, Repr

/-- The fields of `App` that `app_run.go` reads and writes. `coreParse` stands
for the flag library behind `app.core.parseGlobalOpts`; `Func` is the fallback
function, `none` for nil. -/
structure App where
  commands : List (GoString × Command)
  cmdAliases : List (GoString × GoString)
  defaultCommand : GoString
  Func : Option (List GoString → Option GoError)
  ExitOnEnd : Bool
  coreParse : List GoString → CoreParse
  args : List GoString
  inputName : GoString
  commandName : GoString

/-- The event names: the four that `app_run.go` fires, then the other constants
that `ext.go` declares. -/
inductive EvtName where
  | EvtAppPrepareAfter
  | EvtAppBefore
  | EvtAppError
  | EvtAppAfter
  | EvtAppInit
  | EvtAppRunBefore
  | EvtAppRunAfter
  | EvtAppRunError
  | EvtCmdInit
  | EvtCmdNotFound
  | EvtAppCmdNotFound
  | EvtCmdSubNotFound
  | EvtCmdOptParsed
  | EvtCmdRunBefore
  | EvtCmdRunAfter
  | EvtCmdRunError
  | EvtCmdExecBefore
  | EvtCmdExecAfter
  | EvtCmdExecError
  | EvtGOptionsParsed
deriving DecidableEq, Repr

/-- The data handed to `fireEvent`. -/
inductive Payload where
  | app
  | cmd (name : GoString)
  | err (e : GoError)
  | nil
deriving DecidableEq, Repr

/-- One observable step of a run. -/
inductive Effect where
  | fire (evt : EvtName) (data : Payload)
  | showApplicationHelp
  | showVersionInfo
  | disableColor
  | unknownCommandTips (name : GoString) (similar : List GoString)
  | tooManyArguments
  | helpUsage
  | unknownHelpName (name : GoString)
  | cmdShowHelp (name : GoString)
  | innerDispatch (name : GoString) (args : List GoString)
  | innerExecute (name : GoString) (args : List GoString)
  | callFunc (args : List GoString)
  | exit (code : Int)
deriving DecidableEq, Repr

/-! ## Table lookups -/

/-- Modelled from the spec: `IsCommand` is not in the files at hand; a name is
a command when it is a key of the registration table. -/
def App.IsCommand (app : App) (name : GoString) : Bool :=
  (Map.get? app.commands name).isSome

/-- Modelled from the spec: `app.Command(name)` is not in the files at hand; it
is the handle registered under `name`, nil (`none`) when there is none. -/
def App.Command (app : App) (name : GoString) : Option Command :=
  Map.get? app.commands name

/-- Modelled from the spec: `ResolveAlias(token)` is not in the files at hand;
a registered alias gives its canonical target, any other token is returned
unchanged. -/
def App.ResolveAlias (app : App) (token : GoString) : GoString :=
  match Map.get? app.cmdAliases token with
  | some name => name
  | none => token

/-- Modelled from the spec: `CmdNameMap()` is not in the files at hand; it is
the registered canonical names. -/
def App.CmdNameMap (app : App) : List GoString := Map.keys app.commands

/-- The invariants of the registration and alias tables (spec, data model):
keys are unique, names and aliases match the name pattern, an alias refers to
a registered name and is not itself a canonical name. -/
def App.WellFormed (app : App) : Prop :=
  (Map.keys app.commands).Nodup ∧ (Map.keys app.cmdAliases).Nodup ∧
  (∀ n ∈ Map.keys app.commands, isValidCmdName n = true) ∧
  (∀ p ∈ app.cmdAliases,
    isValidCmdName p.1 = true ∧ p.2 ∈ Map.keys app.commands ∧ p.1 ∉ Map.keys app.commands)

instance (app : App) : Decidable app.WellFormed := by
  unfold App.WellFormed; infer_instance

/-! ## app_run.go -/

/-- The test that `findSimilarCmd` applies to one candidate `c`:
`cln > ln && strings.Contains(c, input)`, else
`ln > cln && strings.Contains(input, c)`. -/
def isSimilar (input c : GoString) : Bool :=
  if c.length > input.length ∧ strings.Contains c input = true then true
  else if input.length > c.length ∧ strings.Contains input c = true then true
  else false

/-- The first loop of `findSimilarCmd`, over the command names: a candidate
that passes the test is appended, and the loop breaks once `len(ss) == 5`. -/
def findSimilarCmd.fromNames (input : GoString) : List GoString → List GoString → List GoString
  | [], ss => ss
  | name :: rest, ss =>
    let ss1 := if isSimilar input name then ss ++ [name] else ss
    if ss1.length = 5 then ss1 else fromNames input rest ss1

/-- The second loop of `findSimilarCmd`, over the aliases: it breaks before
looking at an alias once `len(ss) >= 5`. -/
def findSimilarCmd.fromAliases (input : GoString) : List GoString → List GoString → List GoString
  | [], ss => ss
  | name :: rest, ss =>
    if ss.length ≥ 5 then ss
    else fromAliases input rest (if isSimilar input name then ss ++ [name] else ss)

/-- The keys of `names` after `names["help"] = 4`. -/
def withHelp (names : List GoString) : List GoString :=
  if str "help" ∈ names then names else names ++ [str "help"]

/-- The source function `findSimilarCmd`: similar names by substring containment, at most five. -/
def App.findSimilarCmd (app : App) (o : MapOrder) (input : GoString) : List GoString :=
  let ss := findSimilarCmd.fromNames input (o.names (withHelp app.CmdNameMap)) []
  findSimilarCmd.fromAliases input (o.aliases (Map.keys app.cmdAliases)) ss

/-- The source function `showCommandTips`: the unknown-command message with the similar names. -/
def App.showCommandTips (app : App) (o : MapOrder) (name : GoString) : List Effect :=
  [Effect.unknownCommandTips name (app.findSimilarCmd o name)]

/-- The source function `showCommandHelp`: help for one command; the result is the code and what was printed. -/
def App.showCommandHelp (k : Consts) (app : App) (list : List GoString) : Int × List Effect :=
  match list with
  | [l0] =>
    let name := app.ResolveAlias l0
    if name = HelpCommand ∨ name = str "-h" then (0, [Effect.helpUsage])
    else
      match Map.get? app.commands name with
      | none => (k.ERR, [Effect.unknownHelpName name])
      | some _ => (0, [Effect.cmdShowHelp name])
  | _ => (k.ERR, [Effect.tooManyArguments])

/-- The source function `doRunFunc`, for a fallback function `f` that is not nil. -/
def App.doRunFunc (k : Consts) (f : List GoString → Option GoError) (args : List GoString) :
    Int × List Effect :=
  match f args with
  | some err => (k.ERR, [Effect.callFunc args, Effect.fire EvtName.EvtAppError (Payload.err err)])
  | none => (0, [Effect.callFunc args, Effect.fire EvtName.EvtAppAfter Payload.nil])

/-- The source function `doRunCmd`. A name without a command gives a nil handle, and using it
panics (`none`). -/
def App.doRunCmd (k : Consts) (app : App) (name : GoString) (args : List GoString) :
    Option (Int × List Effect) :=
  match app.Command name with
  | none => none
  | some cmd =>
    let before := [Effect.fire EvtName.EvtAppBefore (Payload.cmd name), Effect.innerDispatch name args]
    match cmd.innerDispatch args with
    | some err => some (k.ERR, before ++ [Effect.fire EvtName.EvtAppError (Payload.err err)])
    | none => some (0, before ++ [Effect.fire EvtName.EvtAppAfter Payload.nil])

/-- The source function `exitOnEnd`: the exit call when `ExitOnEnd` is set, and the code. -/
def App.exitOnEnd (app : App) (code : Int) : Int × List Effect :=
  (code, if app.ExitOnEnd then [Effect.exit code] else [])

/-- The source function `findCommandName`: the name and the application after the call. -/
def App.findCommandName (app : App) (args : List GoString) : GoString × App :=
  match args with
  | [] =>
    let name := app.defaultCommand
    if name = [] then (name, app)
    else if app.IsCommand name = false then ([], app)
    else (name, app)
  | name :: rest =>
    if isValidCmdName name then
      let realName := app.ResolveAlias name
      if app.IsCommand realName then
        (realName, { app with args := rest, inputName := name })
      else (realName, app)
    else ([], app)

/-- The source function `App.parseGlobalOpts`: `ok`, the application after the call and what it
printed. `showAutoCompletion` has an empty body. -/
def App.parseGlobalOpts (app : App) (args : List GoString) : Bool × App × List Effect :=
  let r := app.coreParse args
  if r.ok = false then (false, app, [])
  else if r.gOpts.showHelp then (false, app, [Effect.showApplicationHelp])
  else if r.gOpts.showVer then (false, app, [Effect.showVersionInfo])
  else
    let e := if r.gOpts.NoColor then [Effect.disableColor] else []
    let app1 := { app with args := r.FSetArgs }
    if r.gOpts.inCompletion then (false, app1, e) else (true, app1, e)

/-- The source function `prepareRun`: the code, the name, the application after the call and the
effects. -/
def App.prepareRun (k : Consts) (o : MapOrder) (app : App) : Int × GoString × App × List Effect :=
  let r := app.findCommandName app.args
  let name := r.1
  let app1 := r.2
  if name = HelpCommand then
    match app1.args with
    | [] => (0, name, app1, [Effect.showApplicationHelp])
    | a0 :: _ =>
      let cmds := if isValidCmdName a0 then [a0] else []
      let h := app1.showCommandHelp k cmds
      (h.1, name, app1, h.2)
  else if name = [] then
    match app1.Func with
    | some f =>
      let d := App.doRunFunc k f app1.args
      (d.1, name, app1, d.2)
    | none => (0, name, app1, [Effect.showApplicationHelp])
  else if app1.inputName = [] then
    (0, name, app1, app1.showCommandTips o name)
  else
    (k.GOON, name, { app1 with commandName := name }, [])

/-- The result of a run: the code returned, the application afterwards and the
trace of effects in order. -/
structure RunResult where
  code : Int
  app : App
  trace : List Effect

/-- The source function `Run`. `args` is `none` for a nil slice, replaced by `osArgs`
(`os.Args[1:]`); `initialize` has run before. The result is `none` when the
run panics. -/
def App.Run (k : Consts) (o : MapOrder) (osArgs : List GoString) (app : App)
    (args : Option (List GoString)) : Option RunResult :=
  let code : Int := 0
  let args := match args with
    | none => osArgs
    | some a => a
  let p := app.parseGlobalOpts args
  if p.1 = false then
    let x := p.2.1.exitOnEnd code
    some ⟨x.1, p.2.1, p.2.2 ++ x.2⟩
  else
    let q := p.2.1.prepareRun k o
    let code := q.1
    let name := q.2.1
    let app2 := q.2.2.1
    if code ≠ k.GOON then
      let x := app2.exitOnEnd code
      some ⟨x.1, app2, p.2.2 ++ q.2.2.2 ++ x.2⟩
    else
      let prepared := [Effect.fire EvtName.EvtAppPrepareAfter Payload.app]
      match app2.doRunCmd k name app2.args with
      | none => none
      | some d =>
        let x := app2.exitOnEnd d.1
        some ⟨x.1, app2, p.2.2 ++ q.2.2.2 ++ prepared ++ d.2 ++ x.2⟩

/-- The source function `Exec`: the error returned (`none` for nil) and the effects. The
outer `none` is the panic of a nil handle. -/
def App.Exec (app : App) (name : GoString) (args : List GoString) :
    Option (Option GoError × List Effect) :=
  if app.IsCommand name = false then
    some (some (str "exec unknown command name '" ++ name ++ str "'"), [])
  else
    match Map.get? app.commands name with
    | none => none
    | some cmd => some (cmd.innerExecute args false, [Effect.innerExecute name args])

/-- Whether an effect is a fired lifecycle event. -/
def Effect.isFire : Effect → Bool
  | Effect.fire _ _ => true
  | _ => false

/-! ## ext.go: hooks -/

/-- The fields of `HookCtx`: `Cmd` is the command by name, `App` whether the
application is attached. -/
structure HookCtx where
  name : GoString
  stop : Bool
  err : Option GoError
  Data : List (GoString × GoString)
  App : Bool
  Cmd : Option GoString
deriving DecidableEq, Repr

/-- A value of type `HookFunc`, `none` for nil. A handler receives a pointer to
the context: it returns `stop` and the context as it leaves it. -/
abbrev HookFunc := Option (HookCtx → Bool × HookCtx)

/-- The struct `Hooks`; `hooks` is `none` for a nil map. -/
structure Hooks where
  hooks : Option (List (GoString × HookFunc))

/-- The read `handler, ok := h.hooks[name]`; a nil map has no entry. -/
def Hooks.lookup (h : Hooks) (name : GoString) : Option HookFunc :=
  match h.hooks with
  | none => none
  | some m => Map.get? m name

/-- How a registration ends: the table afterwards, and whether it ended in a
panic. -/
structure HookOutcome where
  hooks : Hooks
  panicked : Bool

/-- The source function `On`. `panicf` is taken to panic, as the spec says ("fails fatally"). -/
def Hooks.On (h : Hooks) (name : GoString) (handler : HookFunc) : HookOutcome :=
  match handler with
  | none => ⟨h, true⟩
  | some f =>
    let m := match h.hooks with
      | none => []
      | some m => m
    ⟨⟨some (Map.set m name (some f))⟩, false⟩

/-- The source function `AddHook`. -/
def Hooks.AddHook (h : Hooks) (name : GoString) (handler : HookFunc) : HookOutcome :=
  match h.lookup name with
  | some _ => ⟨h, false⟩
  | none => h.On name handler

/-- What a call of `Fire` leaves: the result `stop`, the context, the table and
the events whose handler was invoked. -/
structure FireResult where
  stop : Bool
  ctx : HookCtx
  hooks : Hooks
  invoked : List GoString

/-- The source function `Fire`. Calling a nil function stored in the table panics (`none`). -/
def Hooks.Fire (h : Hooks) (event : GoString) (ctx : HookCtx) : Option FireResult :=
  match h.lookup event with
  | some (some handler) => some ⟨(handler ctx).1, (handler ctx).2, h, [event]⟩
  | some none => none
  | none => some ⟨false, ctx, h, []⟩

/-- The source function `HasHook`. -/
def Hooks.HasHook (h : Hooks) (event : GoString) : Bool := (h.lookup event).isSome

/-- The source function `ResetHooks`. -/
def Hooks.ResetHooks (_ : Hooks) : Hooks := ⟨none⟩

/-! ## ext.go: the help replacer -/

namespace strings

/-- The pair whose old string starts `s`, the earliest pair first ("comparisons
are done in argument order"). -/
def Replacer.lookup : List (GoString × GoString) → GoString → Option (GoString × GoString)
  | [], _ => none
  | (old, new) :: pairs, s => if startsWith s old then some (old, new) else lookup pairs s

/-- Go `strings.NewReplacer(oldnew...).Replace(s)` for old strings that are not
empty: matches are replaced from left to right without overlap. `skip` counts
the bytes of the current match still to pass over. -/
def Replacer.replaceFrom (pairs : List (GoString × GoString)) : Nat → GoString → GoString
  | _, [] => []
  | skip + 1, _ :: s => replaceFrom pairs skip s
  | 0, b :: s =>
    match Replacer.lookup pairs (b :: s) with
    | some (old, new) => new ++ replaceFrom pairs (old.length - 1) s
    | none => b :: replaceFrom pairs 0 s

/-- The call `strings.NewReplacer(oldnew...).Replace(s)`. -/
def Replacer.Replace (pairs : List (GoString × GoString)) (s : GoString) : GoString :=
  Replacer.replaceFrom pairs 0 s

end strings

/-- The fields of `HelpReplacer`; a nil map `replaces` reads as the empty list. -/
structure HelpReplacer where
  VarOpen : GoString
  VarClose : GoString
  replaces : List (GoString × GoString)

/-- The value of `fmt.Sprintf(HelpVarFormat, n)`, with `HelpVarFormat = "{$%s}"`. -/
def helpVar (n : GoString) : GoString := str "\x7b$" ++ n ++ str "\x7d"

/-- The source function `ReplacePairs`. `order` is the order in which `range` visits
`hv.replaces`. -/
def HelpReplacer.ReplacePairs (hv : HelpReplacer)
    (order : List (GoString × GoString) → List (GoString × GoString)) (input : GoString) :
    GoString :=
  if strings.Contains input (str "\x7b$") = false then input
  else
    strings.Replacer.Replace ((order hv.replaces).map (fun p => (helpVar p.1, p.2))) input

/-- The spec's containment rule for a candidate `c` and an input `t`. -/
def ContainmentRule (t c : GoString) : Prop :=
  (c.length > t.length ∧ t <:+: c) ∨ (t.length > c.length ∧ c <:+: t)

instance (t c : GoString) : Decidable (ContainmentRule t c) := by
  unfold ContainmentRule; infer_instance

/-! ## Sample applications -/

/-- A flag library that finds no global option: every argument is left over. -/
def passThrough (args : List GoString) : CoreParse :=
  ⟨true, ⟨false, false, false, false⟩, args⟩

/-- A flag library that rejects every argument vector. -/
def rejectAll (_ : List GoString) : CoreParse :=
  ⟨false, ⟨false, false, false, false⟩, []⟩

/-- A command body that succeeds. -/
def okCommand : Command := ⟨fun _ => none, fun _ _ => none⟩

/-- A command body that fails. -/
def failCommand : Command := ⟨fun _ => some (str "failed"), fun _ _ => some (str "failed")⟩

/-- Commands `build` and `deploy`, alias `b` for `build`. -/
def sampleApp : App :=
  { commands := [(str "build", okCommand), (str "deploy", failCommand)]
    cmdAliases := [(str "b", str "build")]
    defaultCommand := []
    Func := none
    ExitOnEnd := true
    coreParse := passThrough
    args := []
    inputName := []
    commandName := [] }

/-- The single command `build`, no alias, no default command, no fallback. -/
def buildApp : App :=
  { sampleApp with commands := [(str "build", okCommand)], cmdAliases := [] }

/-- The sample codes: `ERR = 2`, `GOON = -1`. -/
def sampleConsts : Consts := ⟨2, -1⟩

/-- The visiting order that keeps the keys as they are listed. -/
def listedOrder : MapOrder := ⟨id, id⟩

/-- The visiting order that reverses the listed keys. -/
def reversedOrder : MapOrder := ⟨List.reverse, List.reverse⟩


/-- The application `buildApp` with a fallback function that returns an error. -/
def failingFallbackApp : App :=
  { buildApp with Func := some (fun _ => some (str "failed")) }

/-- The application `buildApp` with a flag library that rejects its arguments. -/
def rejectingApp : App :=
  { buildApp with coreParse := rejectAll }

/-- The application `buildApp` with `build` as its default command. -/
def defaultBuildApp : App :=
  { buildApp with defaultCommand := str "build" }

/-- A handler that asks to stop and marks the context stopped. -/
def stopHandler : HookCtx → Bool × HookCtx := fun ctx => (true, { ctx with stop := true })

/-- A handler that lets the run go on and leaves the context as it is. -/
def passHandler : HookCtx → Bool × HookCtx := fun ctx => (false, ctx)

/-- A context for the event `e`. -/
def sampleCtx (e : GoString) : HookCtx := ⟨e, false, none, [], false, none⟩

/-- A table with the handler `stopHandler` for the event app.run.before. -/
def sampleHooks : Hooks := ⟨some [(str "app.run.before", some stopHandler)]⟩

/-- Six commands whose names all contain the letter a, and no alias. -/
def sixApp : App :=
  { buildApp with
    commands := [(str "ab", okCommand), (str "ac", okCommand), (str "ad", okCommand),
      (str "ae", okCommand), (str "af", okCommand), (str "ag", okCommand)] }

/-- The application `buildApp` entered with an input name left over from an earlier run. -/
def staleApp : App :=
  { buildApp with inputName := str "build" }

/-- A replacer that knows the variable binName. -/
def sampleReplacer : HelpReplacer := ⟨[], [], [(str "binName", str "app")]⟩

/-! ## Lemmas on maps and strings -/

theorem Map.get?_isSome_iff {V : Type} (m : List (GoString × V)) (key : GoString) :
    (Map.get? m key).isSome = true ↔ key ∈ Map.keys m := by
  induction m with
  | nil => simp [Map.get?, Map.keys]
  | cons p m ih =>
    obtain ⟨k, v⟩ := p
    by_cases h : k = key
    · simp [Map.get?, Map.keys, h]
    · have h2 : ¬ key = k := fun e => h e.symm
      simpa [Map.get?, Map.keys, h, h2] using ih

theorem Map.mem_of_get?_eq_some {V : Type} (m : List (GoString × V)) (key : GoString) (v : V)
    (h : Map.get? m key = some v) : (key, v) ∈ m := by
  induction m with
  | nil => simp [Map.get?] at h
  | cons p m ih =>
    obtain ⟨k, w⟩ := p
    by_cases hk : k = key
    · simp [Map.get?, hk] at h
      simp [hk, h]
    · simp [Map.get?, hk] at h
      exact List.mem_cons_of_mem _ (ih h)

theorem strings.startsWith_iff (s pre : GoString) :
    strings.startsWith s pre = true ↔ pre <+: s := by
  induction s generalizing pre with
  | nil => cases pre <;> simp [strings.startsWith]
  | cons b s ih =>
    cases pre with
    | nil => simp [strings.startsWith]
    | cons p pre =>
      simp [strings.startsWith, ih, List.cons_prefix_cons]
      tauto

theorem strings.Contains_iff (s substr : GoString) :
    strings.Contains s substr = true ↔ substr <:+: s := by
  induction s with
  | nil =>
    simp [strings.Contains, strings.startsWith_iff]
  | cons b s ih =>
    simp only [strings.Contains, Bool.or_eq_true, strings.startsWith_iff, ih, List.infix_cons_iff]

theorem isSimilar_iff (input c : GoString) :
    isSimilar input c = true ↔
      (c.length > input.length ∧ input <:+: c) ∨ (input.length > c.length ∧ c <:+: input) := by
  unfold isSimilar
  simp only [strings.Contains_iff]
  split_ifs with h1 h2 <;> simp_all


/-! ## The loops of findSimilarCmd -/

theorem findSimilarCmd.fromNames_length (input : GoString) (l ss : List GoString)
    (h : ss.length < 5) : (findSimilarCmd.fromNames input l ss).length ≤ 5 := by
  induction l generalizing ss with
  | nil => simp only [findSimilarCmd.fromNames]; omega
  | cons name rest ih =>
    simp only [findSimilarCmd.fromNames]
    split_ifs with h1 h2 h3
    · omega
    · apply ih
      simp only [List.length_append, List.length_singleton] at h2 ⊢
      omega
    · omega
    · exact ih ss h

theorem findSimilarCmd.fromAliases_length (input : GoString) (l ss : List GoString)
    (h : ss.length ≤ 5) : (findSimilarCmd.fromAliases input l ss).length ≤ 5 := by
  induction l generalizing ss with
  | nil => simpa only [findSimilarCmd.fromAliases] using h
  | cons name rest ih =>
    simp only [findSimilarCmd.fromAliases]
    split_ifs with h1 h2
    · exact h
    · apply ih
      simp only [List.length_append, List.length_singleton]
      omega
    · exact ih ss h

theorem findSimilarCmd.mem_fromNames (input : GoString) (l ss : List GoString) (c : GoString)
    (h : c ∈ findSimilarCmd.fromNames input l ss) :
    c ∈ ss ∨ (c ∈ l ∧ isSimilar input c = true) := by
  induction l generalizing ss with
  | nil => exact Or.inl (by simpa only [findSimilarCmd.fromNames] using h)
  | cons name rest ih =>
    simp only [findSimilarCmd.fromNames] at h
    cases hs : isSimilar input name with
    | true =>
      simp only [hs, if_true] at h
      have key : c ∈ ss ++ [name] ∨ (c ∈ rest ∧ isSimilar input c = true) := by
        split_ifs at h
        · exact Or.inl h
        · exact ih _ h
      rcases key with hk | hk
      · rcases List.mem_append.mp hk with h1 | h1
        · exact Or.inl h1
        · rw [List.mem_singleton] at h1
          subst h1
          exact Or.inr ⟨List.mem_cons_self _ _, hs⟩
      · exact Or.inr ⟨List.mem_cons_of_mem _ hk.1, hk.2⟩
    | false =>
      simp only [hs, Bool.false_eq_true, if_false] at h
      have key : c ∈ ss ∨ (c ∈ rest ∧ isSimilar input c = true) := by
        split_ifs at h
        · exact Or.inl h
        · exact ih _ h
      rcases key with hk | hk
      · exact Or.inl hk
      · exact Or.inr ⟨List.mem_cons_of_mem _ hk.1, hk.2⟩

theorem findSimilarCmd.mem_fromAliases (input : GoString) (l ss : List GoString) (c : GoString)
    (h : c ∈ findSimilarCmd.fromAliases input l ss) :
    c ∈ ss ∨ (c ∈ l ∧ isSimilar input c = true) := by
  induction l generalizing ss with
  | nil => exact Or.inl (by simpa only [findSimilarCmd.fromAliases] using h)
  | cons name rest ih =>
    simp only [findSimilarCmd.fromAliases] at h
    split_ifs at h with h1 hs
    · exact Or.inl h
    · rcases ih _ h with hk | hk
      · rcases List.mem_append.mp hk with h2 | h2
        · exact Or.inl h2
        · rw [List.mem_singleton] at h2
          subst h2
          exact Or.inr ⟨List.mem_cons_self _ _, hs⟩
      · exact Or.inr ⟨List.mem_cons_of_mem _ hk.1, hk.2⟩
    · rcases ih _ h with hk | hk
      · exact Or.inl hk
      · exact Or.inr ⟨List.mem_cons_of_mem _ hk.1, hk.2⟩

theorem mem_withHelp (names : List GoString) (c : GoString) :
    c ∈ withHelp names ↔ c ∈ names ∨ c = str "help" := by
  unfold withHelp
  split_ifs with h
  · constructor
    · exact Or.inl
    · rintro (h1 | h1)
      · exact h1
      · rw [h1]; exact h
  · simp

/-- Every suggestion comes from one of the two tables in visiting order and passes the test. -/
theorem App.mem_findSimilarCmd (app : App) (o : MapOrder) (input c : GoString)
    (h : c ∈ app.findSimilarCmd o input) :
    (c ∈ o.names (withHelp app.CmdNameMap) ∨ c ∈ o.aliases (Map.keys app.cmdAliases)) ∧
      isSimilar input c = true := by
  unfold App.findSimilarCmd at h
  rcases findSimilarCmd.mem_fromAliases _ _ _ _ h with h1 | h1
  · rcases findSimilarCmd.mem_fromNames _ _ _ _ h1 with h2 | h2
    · simp at h2
    · exact ⟨Or.inl h2.1, h2.2⟩
  · exact ⟨Or.inr h1.1, h1.2⟩

/-! ## Claims -/

/-- C1: when the first token of a non-empty argument vector is a registered canonical command
name, or a syntactically valid alias of a registered command, findCommandName returns that
canonical name, sets the remaining arguments to exactly the tail of the vector and records the
first token as the originally typed input name. -/
theorem findCommandName_resolves (app : App) (t n : GoString) (rest : List GoString)
    (hwf : app.WellFormed)
    (h : (app.IsCommand t = true ∧ n = t) ∨
      (isValidCmdName t = true ∧ Map.get? app.cmdAliases t = some n ∧ app.IsCommand n = true)) :
    (app.findCommandName (t :: rest)).1 = n ∧
      (app.findCommandName (t :: rest)).2.args = rest ∧
      (app.findCommandName (t :: rest)).2.inputName = t := by
  obtain ⟨_, _, hnames, haliases⟩ := hwf
  have key : isValidCmdName t = true ∧ app.ResolveAlias t = n ∧ app.IsCommand n = true := by
    rcases h with ⟨hc, hn⟩ | ⟨hv, ha, hc⟩
    · subst hn
      have hmem : n ∈ Map.keys app.commands := (Map.get?_isSome_iff _ _).mp hc
      refine ⟨hnames n hmem, ?_, hc⟩
      unfold App.ResolveAlias
      cases hg : Map.get? app.cmdAliases n with
      | none => rfl
      | some m => exact absurd hmem (haliases _ (Map.mem_of_get?_eq_some _ _ _ hg)).2.2
    · exact ⟨hv, by simp only [App.ResolveAlias, ha], hc⟩
  obtain ⟨hv, hr, hc⟩ := key
  simp only [App.findCommandName, hv, hr, hc, if_true]
  exact ⟨trivial, trivial, trivial⟩

/-- Witness for C1: commands build and deploy, alias b for build, arguments b -x. -/
theorem findCommandName_resolves_witness :
    (sampleApp.findCommandName [str "b", str "-x"]).1 = str "build" ∧
      (sampleApp.findCommandName [str "b", str "-x"]).2.args = [str "-x"] ∧
      (sampleApp.findCommandName [str "b", str "-x"]).2.inputName = str "b" :=
  findCommandName_resolves sampleApp (str "b") (str "build") [str "-x"] (by decide)
    (Or.inr (by decide))

/-- C3: for every command table, alias table, visiting order and input, findSimilarCmd returns
at most five entries; every entry is a registered canonical name, the keyword help or a
registered alias, and satisfies the containment rule relative to the input (it is strictly
longer and contains the input, or strictly shorter and contained in it), so that no entry equals
the input or has its length. -/
theorem findSimilarCmd_sound (app : App) (o : MapOrder) (t : GoString) (ho : o.Valid) :
    (app.findSimilarCmd o t).length ≤ 5 ∧
      ∀ c ∈ app.findSimilarCmd o t,
        (app.IsCommand c = true ∨ c = str "help" ∨ (Map.get? app.cmdAliases c).isSome = true) ∧
        ((c.length > t.length ∧ t <:+: c) ∨ (t.length > c.length ∧ c <:+: t)) ∧
        c ≠ t ∧ c.length ≠ t.length := by
  constructor
  · unfold App.findSimilarCmd
    apply findSimilarCmd.fromAliases_length
    apply findSimilarCmd.fromNames_length
    simp
  · intro c hc
    obtain ⟨hsrc, hsim⟩ := App.mem_findSimilarCmd app o t c hc
    have hrule := (isSimilar_iff t c).mp hsim
    refine ⟨?_, hrule, ?_, ?_⟩
    · rcases hsrc with h1 | h1
      · have h2 := ((ho.1 _).mem_iff).mp h1
        rcases (mem_withHelp _ _).mp h2 with h3 | h3
        · exact Or.inl ((Map.get?_isSome_iff _ _).mpr h3)
        · exact Or.inr (Or.inl h3)
      · have h2 := ((ho.2 _).mem_iff).mp h1
        exact Or.inr (Or.inr ((Map.get?_isSome_iff _ _).mpr h2))
    · rintro rfl
      rcases hrule with h1 | h1 <;> omega
    · rcases hrule with h1 | h1 <;> omega

/-- Witness for C3: the sample application, keys visited in reverse, input bui. -/
theorem findSimilarCmd_sound_witness :
    (sampleApp.findSimilarCmd reversedOrder (str "bui")).length ≤ 5 ∧
      ∀ c ∈ sampleApp.findSimilarCmd reversedOrder (str "bui"),
        (sampleApp.IsCommand c = true ∨ c = str "help" ∨
          (Map.get? sampleApp.cmdAliases c).isSome = true) ∧
        ((c.length > (str "bui").length ∧ str "bui" <:+: c) ∨
          ((str "bui").length > c.length ∧ c <:+: str "bui")) ∧
        c ≠ str "bui" ∧ c.length ≠ (str "bui").length :=
  findSimilarCmd_sound sampleApp reversedOrder (str "bui")
    ⟨fun l => List.reverse_perm l, fun l => List.reverse_perm l⟩


/-! ### Global options and the unknown-command path -/

theorem App.parseGlobalOpts_ok (app : App) (args : List GoString)
    (h : (app.parseGlobalOpts args).1 = true) :
    (app.parseGlobalOpts args).2.1 = { app with args := (app.coreParse args).FSetArgs } ∧
      (app.parseGlobalOpts args).2.2 =
        (if (app.coreParse args).gOpts.NoColor then [Effect.disableColor] else []) := by
  unfold App.parseGlobalOpts at h ⊢
  generalize app.coreParse args = r at h ⊢
  obtain ⟨ok, ⟨sh, sv, nc, ic⟩, fs⟩ := r
  cases ok <;> cases sh <;> cases sv <;> cases nc <;> cases ic <;> simp_all

theorem isValidCmdName_ne_nil (t : GoString) (h : isValidCmdName t = true) : t ≠ [] := by
  rintro rfl
  exact absurd h (by decide)

theorem App.ResolveAlias_of_unregistered (app : App) (t : GoString) (hwf : app.WellFormed)
    (hun : app.IsCommand (app.ResolveAlias t) = false) : app.ResolveAlias t = t := by
  unfold App.ResolveAlias at hun ⊢
  cases hg : Map.get? app.cmdAliases t with
  | none => rfl
  | some m =>
    rw [hg] at hun
    have h1 := (hwf.2.2.2 _ (Map.mem_of_get?_eq_some _ _ _ hg)).2.1
    have h2 := (Map.get?_isSome_iff _ _).mpr h1
    simp only [App.IsCommand] at hun
    rw [h2] at hun
    exact absurd hun (by decide)

/-- What `parseGlobalOpts` leaves behind when it returns true: only `args` changes. -/
theorem App.parseGlobalOpts_fields (app : App) (args : List GoString)
    (h : (app.parseGlobalOpts args).1 = true) :
    (app.parseGlobalOpts args).2.1.args = (app.coreParse args).FSetArgs ∧
      (app.parseGlobalOpts args).2.1.commands = app.commands ∧
      (app.parseGlobalOpts args).2.1.cmdAliases = app.cmdAliases ∧
      (app.parseGlobalOpts args).2.1.defaultCommand = app.defaultCommand ∧
      (app.parseGlobalOpts args).2.1.Func = app.Func ∧
      (app.parseGlobalOpts args).2.1.ExitOnEnd = app.ExitOnEnd ∧
      (app.parseGlobalOpts args).2.1.inputName = app.inputName := by
  rw [(App.parseGlobalOpts_ok app args h).1]
  exact ⟨rfl, rfl, rfl, rfl, rfl, rfl, rfl⟩

theorem App.findSimilarCmd_congr (a b : App) (o : MapOrder) (t : GoString)
    (hc : a.commands = b.commands) (ha : a.cmdAliases = b.cmdAliases) :
    a.findSimilarCmd o t = b.findSimilarCmd o t := by
  simp only [App.findSimilarCmd, App.CmdNameMap, hc, ha]

/-- The unknown-command branch of `prepareRun`. -/
theorem App.prepareRun_unknown (k : Consts) (o : MapOrder) (app : App) (t : GoString)
    (rest : List GoString) (hargs : app.args = t :: rest) (hfresh : app.inputName = [])
    (hvalid : isValidCmdName t = true) (hhelp : t ≠ HelpCommand)
    (hres : app.ResolveAlias t = t) (hun : app.IsCommand t = false) :
    app.prepareRun k o = (0, t, app, [Effect.unknownCommandTips t (app.findSimilarCmd o t)]) := by
  have hne := isValidCmdName_ne_nil t hvalid
  have hfind : app.findCommandName app.args = (t, app) := by
    rw [hargs]
    simp only [App.findCommandName, hvalid, hres, hun, if_true, Bool.false_eq_true, if_false]
  simp only [App.prepareRun, hfind, hhelp, hne, hfresh, if_true, if_false, App.showCommandTips]

/-- C2: on a fresh application, a first token that is syntactically valid, is not the help
keyword and does not resolve to a registered command makes Run report the unknown command
and return the code 0 (not a nonzero code). -/
theorem Run_unknown_command_returns_zero (k : Consts) (o : MapOrder) (osArgs : List GoString)
    (app : App) (args : List GoString) (t : GoString) (rest : List GoString)
    (hwf : app.WellFormed) (hfresh : app.inputName = [])
    (hp : (app.parseGlobalOpts args).1 = true)
    (ha : (app.coreParse args).FSetArgs = t :: rest)
    (hvalid : isValidCmdName t = true) (hhelp : t ≠ HelpCommand)
    (hun : app.IsCommand (app.ResolveAlias t) = false) (hgoon : k.GOON ≠ 0) :
    ∃ r, App.Run k o osArgs app (some args) = some r ∧ r.code = 0 ∧
      Effect.unknownCommandTips t (app.findSimilarCmd o t) ∈ r.trace ∧
      r.app.args = t :: rest := by
  have hres := App.ResolveAlias_of_unregistered app t hwf hun
  rw [hres] at hun
  obtain ⟨f1, f2, f3, _, _, _, f7⟩ := App.parseGlobalOpts_fields app args hp
  obtain ⟨app1, happ1⟩ : ∃ a, (app.parseGlobalOpts args).2.1 = a := ⟨_, rfl⟩
  rw [happ1] at f1 f2 f3 f7
  have hres1 : app1.ResolveAlias t = t := by
    simpa only [App.ResolveAlias, f3] using hres
  have hun1 : app1.IsCommand t = false := by
    simpa only [App.IsCommand, f2] using hun
  have hprep := App.prepareRun_unknown k o app1 t rest (f1.trans ha) (f7.trans hfresh) hvalid hhelp
    hres1 hun1
  rw [App.findSimilarCmd_congr app1 app o t f2 f3] at hprep
  have hg : ¬ (0 : Int) = k.GOON := fun e => hgoon e.symm
  refine ⟨⟨0, app1,
    (app.parseGlobalOpts args).2.2 ++ [Effect.unknownCommandTips t (app.findSimilarCmd o t)]
      ++ (app1.exitOnEnd 0).2⟩, ?_, rfl, by simp, f1.trans ha⟩
  simp only [App.Run, hp, happ1, hprep, ne_eq, hg, not_false_eq_true, if_true, App.exitOnEnd,
    Bool.true_eq_false, if_false]

/-- Witness for C2: the single command build and the mistyped token buidl. -/
theorem Run_unknown_command_returns_zero_witness :
    ∃ r, App.Run sampleConsts listedOrder [] buildApp (some [str "buidl"]) = some r ∧
      r.code = 0 ∧
      Effect.unknownCommandTips (str "buidl") (buildApp.findSimilarCmd listedOrder (str "buidl"))
        ∈ r.trace ∧
      r.app.args = [str "buidl"] :=
  Run_unknown_command_returns_zero sampleConsts listedOrder [] buildApp [str "buidl"]
    (str "buidl") [] (by decide) rfl rfl rfl (by decide) (by decide) (by decide) (by decide)


/-- C4 (as stated, refuted): with the single command build and no alias, the suggestion list
computed for the input buidl does not contain build. -/
theorem findSimilarCmd_buidl_lacks_build :
    ¬ (str "build" ∈ buildApp.findSimilarCmd listedOrder (str "buidl")) := by
  decide

/-- C4 (amended): with the single command build and no alias, whatever the visiting order, the
suggestion list computed for the input buidl is empty, and the unknown-command report carries
that empty list. -/
theorem findSimilarCmd_buidl_empty (o : MapOrder) (ho : o.Valid) :
    buildApp.findSimilarCmd o (str "buidl") = [] ∧
      buildApp.showCommandTips o (str "buidl")
        = [Effect.unknownCommandTips (str "buidl") []] := by
  have hnil : buildApp.findSimilarCmd o (str "buidl") = [] := by
    apply List.eq_nil_iff_forall_not_mem.mpr
    intro c hc
    obtain ⟨hsrc, hsim⟩ := App.mem_findSimilarCmd buildApp o (str "buidl") c hc
    rcases hsrc with h1 | h1
    · have h2 : c ∈ [str "build", str "help"] := ((ho.1 _).mem_iff).mp h1
      simp only [List.mem_cons, List.mem_singleton, List.not_mem_nil, or_false] at h2
      rcases h2 with rfl | rfl
      · exact absurd hsim (by decide)
      · exact absurd hsim (by decide)
    · have h2 : c ∈ ([] : List GoString) := ((ho.2 _).mem_iff).mp h1
      simp at h2
  exact ⟨hnil, by simp only [App.showCommandTips, hnil]⟩

/-- Witness for C4 (amended): the keys visited in reverse. -/
theorem findSimilarCmd_buidl_empty_witness :
    buildApp.findSimilarCmd reversedOrder (str "buidl") = [] ∧
      buildApp.showCommandTips reversedOrder (str "buidl")
        = [Effect.unknownCommandTips (str "buidl") []] :=
  findSimilarCmd_buidl_empty reversedOrder
    ⟨fun l => List.reverse_perm l, fun l => List.reverse_perm l⟩

/-! ### Empty input -/

/-- C5 (as stated, refuted): with no argument and no default command, a configured fallback
function that returns an error makes Run return the ERR code, not 0. -/
theorem Run_empty_args_failing_fallback :
    (failingFallbackApp.findCommandName []).1 = [] ∧
      (App.Run sampleConsts listedOrder [] failingFallbackApp (some [])).map RunResult.code
        = some sampleConsts.ERR ∧
      sampleConsts.ERR ≠ 0 := by
  decide

/-- The empty-name branch of `prepareRun`. -/
theorem App.prepareRun_empty (k : Consts) (o : MapOrder) (app : App) (hargs : app.args = [])
    (hd : app.defaultCommand = []) :
    app.prepareRun k o =
      match app.Func with
      | some f => ((App.doRunFunc k f []).1, [], app, (App.doRunFunc k f []).2)
      | none => (0, [], app, [Effect.showApplicationHelp]) := by
  have hfind : app.findCommandName [] = ([], app) := by
    simp only [App.findCommandName, hd, if_true]
  have hh : ¬ ([] : GoString) = HelpCommand := by decide
  simp only [App.prepareRun, hargs, hfind, hh, if_true, if_false]

/-- C5 (amended): with no argument left after the global options and no default command,
findCommandName yields the empty name and Run returns; without a fallback function the full
application help is rendered and the code is 0; with a fallback function, it is invoked with
the (empty) remaining arguments and the code is 0 when it returns no error and ERR when it
returns an error. -/
theorem Run_empty_args_no_default (k : Consts) (o : MapOrder) (osArgs : List GoString)
    (app : App) (args : List GoString)
    (hp : (app.parseGlobalOpts args).1 = true)
    (ha : (app.coreParse args).FSetArgs = [])
    (hd : app.defaultCommand = []) (hgoon : k.GOON ≠ 0) (hne : k.GOON ≠ k.ERR) :
    (app.findCommandName []).1 = [] ∧
      ∃ r, App.Run k o osArgs app (some args) = some r ∧
        (app.Func = none → r.code = 0 ∧ Effect.showApplicationHelp ∈ r.trace) ∧
        (∀ f, app.Func = some f →
          Effect.callFunc [] ∈ r.trace ∧ (f [] = none → r.code = 0) ∧
            (∀ e, f [] = some e → r.code = k.ERR)) := by
  constructor
  · simp only [App.findCommandName, hd, if_true]
  obtain ⟨f1, _, _, f4, f5, _, _⟩ := App.parseGlobalOpts_fields app args hp
  obtain ⟨app1, happ1⟩ : ∃ a, (app.parseGlobalOpts args).2.1 = a := ⟨_, rfl⟩
  rw [happ1] at f1 f4 f5
  have hprep := App.prepareRun_empty k o app1 (f1.trans ha) (f4.trans hd)
  have hg : ¬ (0 : Int) = k.GOON := fun e => hgoon e.symm
  have hg2 : ¬ k.ERR = k.GOON := fun e => hne e.symm
  cases hF : app.Func with
  | none =>
    simp only [f5, hF] at hprep
    refine ⟨⟨0, app1, (app.parseGlobalOpts args).2.2 ++ [Effect.showApplicationHelp]
      ++ (app1.exitOnEnd 0).2⟩, ?_, fun _ => ⟨rfl, by simp⟩, fun f hf => by simp at hf⟩
    simp only [App.Run, hp, happ1, hprep, ne_eq, hg, not_false_eq_true, if_true, App.exitOnEnd,
      Bool.true_eq_false, if_false]
  | some f =>
    simp only [f5, hF] at hprep
    cases hf : f [] with
    | none =>
      have hdo : App.doRunFunc k f [] =
          (0, [Effect.callFunc [], Effect.fire EvtName.EvtAppAfter Payload.nil]) := by
        simp only [App.doRunFunc, hf]
      rw [hdo] at hprep
      refine ⟨⟨0, app1, (app.parseGlobalOpts args).2.2 ++
        [Effect.callFunc [], Effect.fire EvtName.EvtAppAfter Payload.nil]
        ++ (app1.exitOnEnd 0).2⟩, ?_, fun h => by simp at h, ?_⟩
      · simp only [App.Run, hp, happ1, hprep, ne_eq, hg, not_false_eq_true, if_true,
          App.exitOnEnd, Bool.true_eq_false, if_false]
      · intro f2 hf2
        have : f2 = f := by simpa using hf2.symm
        subst this
        exact ⟨by simp, fun _ => rfl, fun e he => by rw [hf] at he; simp at he⟩
    | some err =>
      have hdo : App.doRunFunc k f [] =
          (k.ERR, [Effect.callFunc [], Effect.fire EvtName.EvtAppError (Payload.err err)]) := by
        simp only [App.doRunFunc, hf]
      rw [hdo] at hprep
      refine ⟨⟨k.ERR, app1, (app.parseGlobalOpts args).2.2 ++
        [Effect.callFunc [], Effect.fire EvtName.EvtAppError (Payload.err err)]
        ++ (app1.exitOnEnd k.ERR).2⟩, ?_, fun h => by simp at h, ?_⟩
      · simp only [App.Run, hp, happ1, hprep, ne_eq, hg2, not_false_eq_true, if_true,
          App.exitOnEnd, Bool.true_eq_false, if_false]
      · intro f2 hf2
        have : f2 = f := by simpa using hf2.symm
        subst this
        exact ⟨by simp, fun h => by rw [hf] at h; simp at h, fun _ _ => rfl⟩

/-- Witness for C5 (amended): the single command build, no fallback, no argument. -/
theorem Run_empty_args_no_default_witness :
    (buildApp.findCommandName []).1 = [] ∧
      ∃ r, App.Run sampleConsts listedOrder [] buildApp (some []) = some r ∧
        (buildApp.Func = none → r.code = 0 ∧ Effect.showApplicationHelp ∈ r.trace) ∧
        (∀ f, buildApp.Func = some f →
          Effect.callFunc [] ∈ r.trace ∧ (f [] = none → r.code = 0) ∧
            (∀ e, f [] = some e → r.code = sampleConsts.ERR)) :=
  Run_empty_args_no_default sampleConsts listedOrder [] buildApp [] rfl rfl rfl
    (by decide) (by decide)


/-! ### The help keyword -/

/-- The help branch of `prepareRun` when help is neither a registered name nor an alias: the
token help is still the first remaining argument, and it is the one handed to
`showCommandHelp`. -/
theorem App.prepareRun_help (k : Consts) (o : MapOrder) (app : App) (rest : List GoString)
    (hargs : app.args = HelpCommand :: rest) (hreg : app.IsCommand HelpCommand = false)
    (hal : Map.get? app.cmdAliases HelpCommand = none) :
    app.prepareRun k o = (0, HelpCommand, app, [Effect.helpUsage]) := by
  have hv : isValidCmdName HelpCommand = true := by decide
  have hres : app.ResolveAlias HelpCommand = HelpCommand := by
    simp only [App.ResolveAlias, hal]
  have hfind : app.findCommandName (HelpCommand :: rest) = (HelpCommand, app) := by
    simp only [App.findCommandName, hv, hres, hreg, if_true, Bool.false_eq_true, if_false]
  simp only [App.prepareRun, hargs, hfind, hv, if_true, App.showCommandHelp, hres, true_or]

/-- C6: when help is neither a registered name nor an alias, an argument vector that starts
with the help keyword, whatever follows it (two or more further arguments included), makes Run
print the usage of the help keyword and return the code 0: no usage error is reported. -/
theorem Run_help_with_arguments_returns_zero (k : Consts) (o : MapOrder)
    (osArgs : List GoString) (app : App) (args rest : List GoString)
    (hp : (app.parseGlobalOpts args).1 = true)
    (ha : (app.coreParse args).FSetArgs = HelpCommand :: rest)
    (hreg : app.IsCommand HelpCommand = false)
    (hal : Map.get? app.cmdAliases HelpCommand = none) (hgoon : k.GOON ≠ 0) :
    ∃ r, App.Run k o osArgs app (some args) = some r ∧ r.code = 0 ∧
      r.trace = (app.parseGlobalOpts args).2.2 ++ [Effect.helpUsage] ++
        (if app.ExitOnEnd then [Effect.exit 0] else []) ∧
      Effect.tooManyArguments ∉ r.trace := by
  obtain ⟨f1, f2, f3, _, _, f6, _⟩ := App.parseGlobalOpts_fields app args hp
  have he := (App.parseGlobalOpts_ok app args hp).2
  obtain ⟨app1, happ1⟩ : ∃ a, (app.parseGlobalOpts args).2.1 = a := ⟨_, rfl⟩
  rw [happ1] at f1 f2 f3 f6
  have hreg1 : app1.IsCommand HelpCommand = false := by
    simpa only [App.IsCommand, f2] using hreg
  have hprep := App.prepareRun_help k o app1 rest (f1.trans ha) hreg1 (by rw [f3]; exact hal)
  have hg : ¬ (0 : Int) = k.GOON := fun e => hgoon e.symm
  refine ⟨⟨0, app1, (app.parseGlobalOpts args).2.2 ++ [Effect.helpUsage] ++
    (if app.ExitOnEnd then [Effect.exit 0] else [])⟩, ?_, rfl, rfl, ?_⟩
  · simp only [App.Run, hp, happ1, hprep, ne_eq, hg, not_false_eq_true, if_true, App.exitOnEnd,
      Bool.true_eq_false, if_false, f6]
  · simp only [he]
    split_ifs <;> simp

/-- Witness for C6: the single command build and the arguments help a b. -/
theorem Run_help_with_arguments_returns_zero_witness :
    ∃ r, App.Run sampleConsts listedOrder [] buildApp (some [str "help", str "a", str "b"])
        = some r ∧ r.code = 0 ∧
      r.trace = (buildApp.parseGlobalOpts [str "help", str "a", str "b"]).2.2 ++
        [Effect.helpUsage] ++ (if buildApp.ExitOnEnd then [Effect.exit 0] else []) ∧
      Effect.tooManyArguments ∉ r.trace :=
  Run_help_with_arguments_returns_zero sampleConsts listedOrder [] buildApp
    [str "help", str "a", str "b"] [str "a", str "b"] rfl rfl (by decide) (by decide) (by decide)

/-- C7: when help is neither a registered name nor an alias, the arguments help c, for a
registered command c or an alias of one, make Run print the usage of the help keyword and
return the code 0; the help of no command, c included, is rendered. -/
theorem Run_help_command_prints_help_usage (k : Consts) (o : MapOrder)
    (osArgs : List GoString) (app : App) (args : List GoString) (c : GoString)
    (hp : (app.parseGlobalOpts args).1 = true)
    (ha : (app.coreParse args).FSetArgs = [HelpCommand, c])
    (_hc : app.IsCommand (app.ResolveAlias c) = true)
    (hreg : app.IsCommand HelpCommand = false)
    (hal : Map.get? app.cmdAliases HelpCommand = none) (hgoon : k.GOON ≠ 0) :
    ∃ r, App.Run k o osArgs app (some args) = some r ∧ r.code = 0 ∧
      Effect.helpUsage ∈ r.trace ∧ ∀ n, Effect.cmdShowHelp n ∉ r.trace := by
  obtain ⟨f1, f2, f3, _, _, f6, _⟩ := App.parseGlobalOpts_fields app args hp
  have he := (App.parseGlobalOpts_ok app args hp).2
  obtain ⟨app1, happ1⟩ : ∃ a, (app.parseGlobalOpts args).2.1 = a := ⟨_, rfl⟩
  rw [happ1] at f1 f2 f3 f6
  have hreg1 : app1.IsCommand HelpCommand = false := by
    simpa only [App.IsCommand, f2] using hreg
  have hprep := App.prepareRun_help k o app1 [c] (f1.trans ha) hreg1 (by rw [f3]; exact hal)
  have hg : ¬ (0 : Int) = k.GOON := fun e => hgoon e.symm
  refine ⟨⟨0, app1, (app.parseGlobalOpts args).2.2 ++ [Effect.helpUsage] ++
    (if app.ExitOnEnd then [Effect.exit 0] else [])⟩, ?_, rfl, by simp, ?_⟩
  · simp only [App.Run, hp, happ1, hprep, ne_eq, hg, not_false_eq_true, if_true, App.exitOnEnd,
      Bool.true_eq_false, if_false, f6]
  · intro n
    simp only [he]
    split_ifs <;> simp

/-- Witness for C7: the single command build and the arguments help build. -/
theorem Run_help_command_prints_help_usage_witness :
    ∃ r, App.Run sampleConsts listedOrder [] buildApp (some [str "help", str "build"])
        = some r ∧ r.code = 0 ∧
      Effect.helpUsage ∈ r.trace ∧ ∀ n, Effect.cmdShowHelp n ∉ r.trace :=
  Run_help_command_prints_help_usage sampleConsts listedOrder [] buildApp
    [str "help", str "build"] (str "build") rfl rfl (by decide) (by decide) (by decide)
    (by decide)

/-! ### Failure of the global options -/

/-- C8: when the flag library reports a failure, Run stops at once and runs no further stage
(its trace holds the exit hand-off only), but the code it returns and hands to the exit step
is 0. -/
theorem Run_parse_failure_returns_zero (k : Consts) (o : MapOrder) (osArgs : List GoString)
    (app : App) (args : List GoString) (h : (app.coreParse args).ok = false) :
    ∃ r, App.Run k o osArgs app (some args) = some r ∧ r.code = 0 ∧
      r.trace = (if app.ExitOnEnd then [Effect.exit 0] else []) ∧
      r.app.args = app.args ∧ r.app.inputName = app.inputName ∧
      r.app.commandName = app.commandName := by
  have hp : app.parseGlobalOpts args = (false, app, []) := by
    simp only [App.parseGlobalOpts, h, if_true]
  refine ⟨⟨0, app, if app.ExitOnEnd then [Effect.exit 0] else []⟩, ?_, rfl, rfl, rfl, rfl, rfl⟩
  simp only [App.Run, hp, if_true, App.exitOnEnd, List.nil_append]

/-- Witness for C8: an application whose flag library rejects the argument --zz. -/
theorem Run_parse_failure_returns_zero_witness :
    ∃ r, App.Run sampleConsts listedOrder [] rejectingApp (some [str "--zz"]) = some r ∧
      r.code = 0 ∧
      r.trace = (if rejectingApp.ExitOnEnd then [Effect.exit 0] else []) ∧
      r.app.args = rejectingApp.args ∧ r.app.inputName = rejectingApp.inputName ∧
      r.app.commandName = rejectingApp.commandName :=
  Run_parse_failure_returns_zero sampleConsts listedOrder [] rejectingApp [str "--zz"] rfl


/-! ### Result codes -/

theorem App.showCommandHelp_code (k : Consts) (app : App) (list : List GoString) :
    ((app.showCommandHelp k list).1 = 0 ∨ (app.showCommandHelp k list).1 = k.ERR) ∧
      ∀ c, Effect.exit c ∉ (app.showCommandHelp k list).2 := by
  unfold App.showCommandHelp
  split
  · dsimp only
    split_ifs
    · simp
    · split <;> simp
  · simp

theorem App.doRunFunc_code (k : Consts) (f : List GoString → Option GoError)
    (args : List GoString) :
    ((App.doRunFunc k f args).1 = 0 ∨ (App.doRunFunc k f args).1 = k.ERR) ∧
      ∀ c, Effect.exit c ∉ (App.doRunFunc k f args).2 := by
  unfold App.doRunFunc
  split <;> simp

theorem App.doRunCmd_code (k : Consts) (app : App) (name : GoString) (args : List GoString)
    (d : Int × List Effect) (h : app.doRunCmd k name args = some d) :
    (d.1 = 0 ∨ d.1 = k.ERR) ∧ ∀ c, Effect.exit c ∉ d.2 := by
  unfold App.doRunCmd at h
  split at h
  · simp at h
  · split at h <;> (simp only [Option.some.injEq] at h; subst h; simp)

theorem App.findCommandName_ExitOnEnd (app : App) (args : List GoString) :
    (app.findCommandName args).2.ExitOnEnd = app.ExitOnEnd := by
  unfold App.findCommandName
  split
  · dsimp only
    split_ifs <;> rfl
  · split_ifs
    · dsimp only
      split_ifs <;> rfl
    · rfl

theorem App.parseGlobalOpts_frame (app : App) (args : List GoString) :
    (app.parseGlobalOpts args).2.1.ExitOnEnd = app.ExitOnEnd ∧
      ∀ c, Effect.exit c ∉ (app.parseGlobalOpts args).2.2 := by
  unfold App.parseGlobalOpts
  generalize app.coreParse args = r
  obtain ⟨ok, ⟨sh, sv, nc, ic⟩, fs⟩ := r
  cases ok <;> cases sh <;> cases sv <;> cases nc <;> cases ic <;> simp

theorem App.prepareRun_code (k : Consts) (o : MapOrder) (app : App) :
    ((app.prepareRun k o).1 = 0 ∨ (app.prepareRun k o).1 = k.ERR ∨
        (app.prepareRun k o).1 = k.GOON) ∧
      (app.prepareRun k o).2.2.1.ExitOnEnd = app.ExitOnEnd ∧
      ∀ c, Effect.exit c ∉ (app.prepareRun k o).2.2.2 := by
  have hE := App.findCommandName_ExitOnEnd app app.args
  unfold App.prepareRun
  generalize app.findCommandName app.args = r at hE
  obtain ⟨name, app1⟩ := r
  simp only at hE ⊢
  split_ifs
  · split
    · simp [hE]
    · rename_i a0 tl _
      have := App.showCommandHelp_code k app1 (if isValidCmdName a0 = true then [a0] else [])
      exact ⟨Or.elim this.1 Or.inl (fun h => Or.inr (Or.inl h)), hE, this.2⟩
  · split
    · rename_i f _
      have := App.doRunFunc_code k f app1.args
      exact ⟨Or.elim this.1 Or.inl (fun h => Or.inr (Or.inl h)), hE, this.2⟩
    · simp [hE]
  · simp [hE, App.showCommandTips]
  · simp [hE]

theorem exit_only_at_end (pre : List Effect) (b : Bool) (c : Int)
    (hpre : ∀ x, Effect.exit x ∉ pre) :
    (∀ x, Effect.exit x ∈ pre ++ (if b = true then [Effect.exit c] else []) → x = c) ∧
      (b = true → Effect.exit c ∈ pre ++ (if b = true then [Effect.exit c] else [])) := by
  constructor
  · intro x hx
    rcases List.mem_append.mp hx with h1 | h1
    · exact absurd h1 (hpre x)
    · cases b
      · simp at h1
      · simpa using h1
  · intro hb
    simp [hb]

/-- C9: whenever Run returns, the code it returns is 0 or ERR and is not the GOON signal;
every exit call in the run carries that same code, and the exit call is made when ExitOnEnd
is set. -/
theorem Run_code_never_GOON (k : Consts) (o : MapOrder) (osArgs : List GoString) (app : App)
    (args : Option (List GoString)) (r : RunResult)
    (hgoon : k.GOON ≠ 0) (hne : k.GOON ≠ k.ERR)
    (h : App.Run k o osArgs app args = some r) :
    (r.code = 0 ∨ r.code = k.ERR) ∧ r.code ≠ k.GOON ∧
      (∀ c, Effect.exit c ∈ r.trace → c = r.code ∧ c ≠ k.GOON) ∧
      (app.ExitOnEnd = true → Effect.exit r.code ∈ r.trace) := by
  have key : (r.code = 0 ∨ r.code = k.ERR) ∧
      (∀ c, Effect.exit c ∈ r.trace → c = r.code) ∧
      (app.ExitOnEnd = true → Effect.exit r.code ∈ r.trace) := by
    unfold App.Run at h
    simp only at h
    generalize (match args with
      | none => osArgs
      | some a => a) = args1 at h
    obtain ⟨hpE, hpN⟩ := App.parseGlobalOpts_frame app args1
    generalize app.parseGlobalOpts args1 = p at h hpE hpN
    obtain ⟨ok, app1, e1⟩ := p
    obtain ⟨hqC, hqE, hqN⟩ := App.prepareRun_code k o app1
    simp only at h hpE hpN
    generalize app1.prepareRun k o = q at h hqC hqE hqN
    obtain ⟨code, name, app2, e2⟩ := q
    simp only at h hqC hqE hqN
    cases ok with
    | false =>
      simp only [if_true, Option.some.injEq] at h
      subst h
      simp only [App.exitOnEnd, hpE]
      exact ⟨Or.inl trivial, exit_only_at_end e1 app.ExitOnEnd 0 hpN⟩
    | true =>
      simp only [Bool.true_eq_false, if_false] at h
      by_cases hc : code = k.GOON
      · simp only [hc, ne_eq, not_true_eq_false, if_false] at h
        cases hd : app2.doRunCmd k name app2.args with
        | none => simp [hd] at h
        | some d =>
          obtain ⟨hdC, hdN⟩ := App.doRunCmd_code k app2 name app2.args d hd
          simp only [hd, Option.some.injEq] at h
          subst h
          simp only [App.exitOnEnd, hqE, hpE]
          refine ⟨hdC, exit_only_at_end _ app.ExitOnEnd d.1 ?_⟩
          intro x hx
          simp only [List.mem_append, List.mem_singleton] at hx
          rcases hx with ((h1 | h1) | h1) | h1
          · exact hpN x h1
          · exact hqN x h1
          · simp at h1
          · exact hdN x h1
      · simp only [ne_eq, hc, not_false_eq_true, if_true, Option.some.injEq] at h
        subst h
        simp only [App.exitOnEnd, hqE, hpE]
        refine ⟨?_, exit_only_at_end _ app.ExitOnEnd code ?_⟩
        · rcases hqC with h1 | h1 | h1
          · exact Or.inl h1
          · exact Or.inr h1
          · exact absurd h1 hc
        · intro x hx
          rcases List.mem_append.mp hx with h1 | h1
          · exact hpN x h1
          · exact hqN x h1
  obtain ⟨h1, h2, h3⟩ := key
  have h4 : r.code ≠ k.GOON := by
    rcases h1 with e | e
    · rw [e]; exact fun x => hgoon x.symm
    · rw [e]; exact fun x => hne x.symm
  exact ⟨h1, h4, fun c hc => ⟨h2 c hc, by rw [h2 c hc]; exact h4⟩, h3⟩

/-- Witness for C9: the sample application running the failing command deploy. -/
theorem Run_code_never_GOON_witness :
    ∃ r, App.Run sampleConsts listedOrder [] sampleApp (some [str "deploy"]) = some r ∧
      (r.code = 0 ∨ r.code = sampleConsts.ERR) ∧ r.code ≠ sampleConsts.GOON ∧
      (∀ c, Effect.exit c ∈ r.trace → c = r.code ∧ c ≠ sampleConsts.GOON) ∧
      (sampleApp.ExitOnEnd = true → Effect.exit r.code ∈ r.trace) :=
  ⟨_, rfl, Run_code_never_GOON sampleConsts listedOrder [] sampleApp (some [str "deploy"]) _
    (by decide) (by decide) rfl⟩

/-! ### Execution -/

/-- C10: for a registered command, doRunCmd fires the before event, then invokes the command
with the given arguments, then fires exactly one terminal event: the error event carrying the
error, with code ERR, when the command returns an error, and the after event, with code 0,
when it succeeds; so the code is ERR exactly when the command returned an error, and the same
holds for the fallback function in doRunFunc. -/
theorem doRunCmd_events (k : Consts) (app : App) (name : GoString) (cmd : Command)
    (args : List GoString) (f : List GoString → Option GoError)
    (hcmd : app.Command name = some cmd) (herr : k.ERR ≠ 0) :
    (∀ e, cmd.innerDispatch args = some e →
        app.doRunCmd k name args = some (k.ERR,
          [Effect.fire EvtName.EvtAppBefore (Payload.cmd name), Effect.innerDispatch name args,
            Effect.fire EvtName.EvtAppError (Payload.err e)])) ∧
      (cmd.innerDispatch args = none →
        app.doRunCmd k name args = some (0,
          [Effect.fire EvtName.EvtAppBefore (Payload.cmd name), Effect.innerDispatch name args,
            Effect.fire EvtName.EvtAppAfter Payload.nil])) ∧
      (∃ d, app.doRunCmd k name args = some d ∧
        (d.1 = k.ERR ↔ (cmd.innerDispatch args).isSome = true)) ∧
      (∀ e, f args = some e → App.doRunFunc k f args =
        (k.ERR, [Effect.callFunc args, Effect.fire EvtName.EvtAppError (Payload.err e)])) ∧
      (f args = none → App.doRunFunc k f args =
        (0, [Effect.callFunc args, Effect.fire EvtName.EvtAppAfter Payload.nil])) ∧
      ((App.doRunFunc k f args).1 = k.ERR ↔ (f args).isSome = true) := by
  have h0 : ¬ (0 : Int) = k.ERR := fun e => herr e.symm
  have hE : ∀ e, cmd.innerDispatch args = some e →
      app.doRunCmd k name args = some (k.ERR,
        [Effect.fire EvtName.EvtAppBefore (Payload.cmd name), Effect.innerDispatch name args,
          Effect.fire EvtName.EvtAppError (Payload.err e)]) := by
    intro e he
    simp only [App.doRunCmd, hcmd, he, List.cons_append, List.nil_append]
  have hN : cmd.innerDispatch args = none →
      app.doRunCmd k name args = some (0,
        [Effect.fire EvtName.EvtAppBefore (Payload.cmd name), Effect.innerDispatch name args,
          Effect.fire EvtName.EvtAppAfter Payload.nil]) := by
    intro he
    simp only [App.doRunCmd, hcmd, he, List.cons_append, List.nil_append]
  refine ⟨hE, hN, ?_, ?_, ?_, ?_⟩
  · cases he : cmd.innerDispatch args with
    | none => exact ⟨_, hN he, by simp [h0]⟩
    | some e => exact ⟨_, hE e he, by simp⟩
  · intro e he
    simp only [App.doRunFunc, he]
  · intro he
    simp only [App.doRunFunc, he]
  · cases he : f args with
    | none => simp [App.doRunFunc, he, h0]
    | some e => simp [App.doRunFunc, he]

/-- Witness for C10: the sample application, the failing command deploy and a fallback
function that succeeds. -/
theorem doRunCmd_events_witness :
    (∀ e, failCommand.innerDispatch [str "-x"] = some e →
        sampleApp.doRunCmd sampleConsts (str "deploy") [str "-x"] = some (sampleConsts.ERR,
          [Effect.fire EvtName.EvtAppBefore (Payload.cmd (str "deploy")),
            Effect.innerDispatch (str "deploy") [str "-x"],
            Effect.fire EvtName.EvtAppError (Payload.err e)])) ∧
      (failCommand.innerDispatch [str "-x"] = none →
        sampleApp.doRunCmd sampleConsts (str "deploy") [str "-x"] = some (0,
          [Effect.fire EvtName.EvtAppBefore (Payload.cmd (str "deploy")),
            Effect.innerDispatch (str "deploy") [str "-x"],
            Effect.fire EvtName.EvtAppAfter Payload.nil])) ∧
      (∃ d, sampleApp.doRunCmd sampleConsts (str "deploy") [str "-x"] = some d ∧
        (d.1 = sampleConsts.ERR ↔ (failCommand.innerDispatch [str "-x"]).isSome = true)) ∧
      (∀ e, okCommand.innerDispatch [str "-x"] = some e →
        App.doRunFunc sampleConsts okCommand.innerDispatch [str "-x"] =
          (sampleConsts.ERR,
            [Effect.callFunc [str "-x"], Effect.fire EvtName.EvtAppError (Payload.err e)])) ∧
      (okCommand.innerDispatch [str "-x"] = none →
        App.doRunFunc sampleConsts okCommand.innerDispatch [str "-x"] =
          (0, [Effect.callFunc [str "-x"], Effect.fire EvtName.EvtAppAfter Payload.nil])) ∧
      ((App.doRunFunc sampleConsts okCommand.innerDispatch [str "-x"]).1 = sampleConsts.ERR ↔
        (okCommand.innerDispatch [str "-x"]).isSome = true) :=
  doRunCmd_events sampleConsts sampleApp (str "deploy") failCommand [str "-x"]
    okCommand.innerDispatch rfl (by decide)


/-! ### In-process execution -/

/-- C11: Exec returns the unknown-command error and executes nothing when the name is not a
registered canonical name, in particular when it is only an alias of a registered command (no
alias is resolved); for a registered name it executes exactly that command with the arguments
and returns its error or nil unchanged, and no application-level run event is fired. -/
theorem Exec_direct (app : App) (name : GoString) (args : List GoString) :
    (app.IsCommand name = false →
      app.Exec name args =
        some (some (str "exec unknown command name '" ++ name ++ str "'"), [])) ∧
    (∀ n, app.WellFormed → Map.get? app.cmdAliases name = some n →
      app.IsCommand n = true ∧
      app.Exec name args =
        some (some (str "exec unknown command name '" ++ name ++ str "'"), [])) ∧
    (∀ cmd, Map.get? app.commands name = some cmd →
      app.Exec name args = some (cmd.innerExecute args false, [Effect.innerExecute name args])) ∧
    (∀ r, app.Exec name args = some r → ∀ e p, Effect.fire e p ∉ r.2) := by
  have hun : app.IsCommand name = false →
      app.Exec name args =
        some (some (str "exec unknown command name '" ++ name ++ str "'"), []) := by
    intro h
    simp only [App.Exec, h, if_true]
  have hreg : ∀ cmd, Map.get? app.commands name = some cmd →
      app.Exec name args =
        some (cmd.innerExecute args false, [Effect.innerExecute name args]) := by
    intro cmd h
    simp only [App.Exec, App.IsCommand, h, Option.isSome_some, Bool.true_eq_false, if_false]
  refine ⟨hun, ?_, hreg, ?_⟩
  · intro n hwf ha
    obtain ⟨_, htarget, hnot⟩ := hwf.2.2.2 _ (Map.mem_of_get?_eq_some _ _ _ ha)
    have h1 : app.IsCommand name = false := by
      cases hc : app.IsCommand name with
      | false => rfl
      | true => exact absurd ((Map.get?_isSome_iff _ _).mp hc) hnot
    exact ⟨(Map.get?_isSome_iff _ _).mpr htarget, hun h1⟩
  · intro r hr e p
    cases hc : Map.get? app.commands name with
    | none =>
      have h1 : app.IsCommand name = false := by simp only [App.IsCommand, hc, Option.isSome_none]
      rw [hun h1] at hr
      simp only [Option.some.injEq] at hr
      subst hr
      simp
    | some cmd =>
      rw [hreg cmd hc] at hr
      simp only [Option.some.injEq] at hr
      subst hr
      simp

/-- Witness for C11: in the sample application the alias b is refused and deploy is executed. -/
theorem Exec_direct_witness :
    (sampleApp.Exec (str "b") [str "-x"]).map Prod.fst
        = some (some (str "exec unknown command name 'b'")) ∧
      sampleApp.Exec (str "deploy") [str "-x"]
        = some (failCommand.innerExecute [str "-x"] false,
            [Effect.innerExecute (str "deploy") [str "-x"]]) :=
  ⟨by
      rw [((Exec_direct sampleApp (str "b") [str "-x"]).2.1 (str "build") (by decide) rfl).2]
      rfl,
    (Exec_direct sampleApp (str "deploy") [str "-x"]).2.2.1 failCommand rfl⟩

/-! ### The default command -/

/-- The branch of `prepareRun` taken for an empty argument vector and a registered default
command, on an application whose input name is empty. -/
theorem App.prepareRun_default (k : Consts) (o : MapOrder) (app : App) (hargs : app.args = [])
    (hfresh : app.inputName = []) (hd : app.defaultCommand ≠ [])
    (hh : app.defaultCommand ≠ HelpCommand) (hreg : app.IsCommand app.defaultCommand = true) :
    app.prepareRun k o = (0, app.defaultCommand, app,
      [Effect.unknownCommandTips app.defaultCommand (app.findSimilarCmd o app.defaultCommand)]) := by
  have hfind : app.findCommandName [] = (app.defaultCommand, app) := by
    simp only [App.findCommandName, hd, hreg, if_false, Bool.true_eq_false]
  simp only [App.prepareRun, hargs, hfind, hh, hd, hfresh, if_true, if_false,
    App.showCommandTips]

/-- C12: on a fresh application, with no argument left and a default command that is
configured and registered, prepareRun does not return GOON: it reports the default command
as an unknown command with code 0, and Run returns 0 without executing it. -/
theorem Run_default_command_not_dispatched (k : Consts) (o : MapOrder)
    (osArgs : List GoString) (app : App) (args : List GoString)
    (hfresh : app.inputName = [])
    (hp : (app.parseGlobalOpts args).1 = true)
    (ha : (app.coreParse args).FSetArgs = [])
    (hd : app.defaultCommand ≠ []) (hh : app.defaultCommand ≠ HelpCommand)
    (hreg : app.IsCommand app.defaultCommand = true) (hgoon : k.GOON ≠ 0) :
    ((app.parseGlobalOpts args).2.1.prepareRun k o).1 = 0 ∧
      ((app.parseGlobalOpts args).2.1.prepareRun k o).1 ≠ k.GOON ∧
      ∃ r, App.Run k o osArgs app (some args) = some r ∧ r.code = 0 ∧
        Effect.unknownCommandTips app.defaultCommand (app.findSimilarCmd o app.defaultCommand)
          ∈ r.trace ∧
        ∀ n a, Effect.innerDispatch n a ∉ r.trace := by
  obtain ⟨f1, f2, f3, f4, _, f6, f7⟩ := App.parseGlobalOpts_fields app args hp
  have he := (App.parseGlobalOpts_ok app args hp).2
  obtain ⟨app1, happ1⟩ : ∃ a, (app.parseGlobalOpts args).2.1 = a := ⟨_, rfl⟩
  rw [happ1] at f1 f2 f3 f4 f6 f7 ⊢
  have hreg1 : app1.IsCommand app1.defaultCommand = true := by
    simpa only [App.IsCommand, f2, f4] using hreg
  have hprep := App.prepareRun_default k o app1 (f1.trans ha) (f7.trans hfresh)
    (by rw [f4]; exact hd) (by rw [f4]; exact hh) hreg1
  rw [App.findSimilarCmd_congr app1 app o _ f2 f3, f4] at hprep
  have hg : ¬ (0 : Int) = k.GOON := fun e => hgoon e.symm
  refine ⟨by rw [hprep], by rw [hprep]; exact hg, ?_⟩
  refine ⟨⟨0, app1, (app.parseGlobalOpts args).2.2 ++
    [Effect.unknownCommandTips app.defaultCommand (app.findSimilarCmd o app.defaultCommand)] ++
    (if app.ExitOnEnd then [Effect.exit 0] else [])⟩, ?_, rfl, by simp, ?_⟩
  · simp only [App.Run, hp, happ1, hprep, ne_eq, hg, not_false_eq_true, if_true, App.exitOnEnd,
      Bool.true_eq_false, if_false, f6]
  · intro n a
    simp only [he]
    split_ifs <;> simp

/-- Witness for C12: the single command build, configured as the default command, and no
argument. -/
theorem Run_default_command_not_dispatched_witness :
    ((defaultBuildApp.parseGlobalOpts []).2.1.prepareRun sampleConsts listedOrder).1 = 0 ∧
      ((defaultBuildApp.parseGlobalOpts []).2.1.prepareRun sampleConsts listedOrder).1
        ≠ sampleConsts.GOON ∧
      ∃ r, App.Run sampleConsts listedOrder [] defaultBuildApp (some []) = some r ∧
        r.code = 0 ∧
        Effect.unknownCommandTips defaultBuildApp.defaultCommand
          (defaultBuildApp.findSimilarCmd listedOrder defaultBuildApp.defaultCommand)
          ∈ r.trace ∧
        ∀ n a, Effect.innerDispatch n a ∉ r.trace :=
  Run_default_command_not_dispatched sampleConsts listedOrder [] defaultBuildApp [] rfl rfl rfl
    (by decide) (by decide) (by decide) (by decide)


/-! ### Hooks -/

theorem Map.get?_set_self {V : Type} (m : List (GoString × V)) (key : GoString) (v : V) :
    Map.get? (Map.set m key v) key = some v := by
  induction m with
  | nil => simp [Map.set, Map.get?]
  | cons p m ih =>
    obtain ⟨k, w⟩ := p
    by_cases hk : k = key
    · simp [Map.set, Map.get?, hk]
    · simp [Map.set, Map.get?, hk, ih]

theorem Map.get?_set_of_ne {V : Type} (m : List (GoString × V)) (key other : GoString) (v : V)
    (h : other ≠ key) : Map.get? (Map.set m key v) other = Map.get? m other := by
  induction m with
  | nil =>
    have h2 : ¬ key = other := fun e => h e.symm
    simp [Map.set, Map.get?, h2]
  | cons p m ih =>
    obtain ⟨k, w⟩ := p
    by_cases hk : k = key
    · have h2 : ¬ key = other := fun e => h e.symm
      simp [Map.set, Map.get?, hk, h2]
    · by_cases ho : k = other
      · subst ho
        simp [Map.set, Map.get?, hk]
      · simp [Map.set, Map.get?, hk, ho, ih]

theorem Hooks.lookup_On_self (h : Hooks) (name : GoString) (f : HookCtx → Bool × HookCtx) :
    (h.On name (some f)).hooks.lookup name = some (some f) := by
  simp only [Hooks.On, Hooks.lookup, Map.get?_set_self]

theorem Hooks.lookup_On_of_ne (h : Hooks) (name other : GoString)
    (f : HookCtx → Bool × HookCtx) (hne : other ≠ name) :
    (h.On name (some f)).hooks.lookup other = h.lookup other := by
  simp only [Hooks.On, Hooks.lookup, Map.get?_set_of_ne _ _ _ _ hne]
  cases h.hooks <;> simp [Map.get?]

theorem Hooks.Fire_of_lookup (h : Hooks) (event : GoString) (ctx : HookCtx)
    (f : HookCtx → Bool × HookCtx) (hl : h.lookup event = some (some f)) :
    h.Fire event ctx = some ⟨(f ctx).1, (f ctx).2, h, [event]⟩ := by
  simp only [Hooks.Fire, hl]

/-- C13: for an event name without a registered handler, also on a table that was never
initialised or was reset, Fire returns false, invokes no handler and leaves the table and the
context as they were; when a handler is registered for the name, Fire invokes it once on the
context and returns exactly its result. -/
theorem Fire_spec (h : Hooks) (event : GoString) (ctx : HookCtx) :
    (h.lookup event = none → h.Fire event ctx = some ⟨false, ctx, h, []⟩) ∧
      (⟨none⟩ : Hooks).Fire event ctx = some ⟨false, ctx, ⟨none⟩, []⟩ ∧
      h.ResetHooks.Fire event ctx = some ⟨false, ctx, h.ResetHooks, []⟩ ∧
      (∀ f, h.lookup event = some (some f) →
        h.Fire event ctx = some ⟨(f ctx).1, (f ctx).2, h, [event]⟩) := by
  refine ⟨?_, rfl, rfl, fun f hl => Hooks.Fire_of_lookup h event ctx f hl⟩
  intro hl
  simp only [Hooks.Fire, hl]

/-- Witness for C13: the sample table fired for an event without handler and for the event of
its handler. -/
theorem Fire_spec_witness :
    sampleHooks.Fire (str "app.run.after") (sampleCtx (str "app.run.after"))
        = some ⟨false, sampleCtx (str "app.run.after"), sampleHooks, []⟩ ∧
      sampleHooks.Fire (str "app.run.before") (sampleCtx (str "app.run.before"))
        = some ⟨true, { sampleCtx (str "app.run.before") with stop := true }, sampleHooks,
            [str "app.run.before"]⟩ :=
  ⟨(Fire_spec sampleHooks (str "app.run.after") (sampleCtx (str "app.run.after"))).1 rfl,
    (Fire_spec sampleHooks (str "app.run.before") (sampleCtx (str "app.run.before"))).2.2.2
      stopHandler rfl⟩

/-- C14: On ends in a panic exactly when the handler is nil, and then leaves the table as it
was; for a handler that is not nil the table afterwards maps the name to that handler and the
entry of every other name is unchanged, so that after two registrations for one name Fire runs
the second handler, whatever the first one was. -/
theorem On_spec (h : Hooks) (name : GoString) (handler : HookFunc) :
    ((h.On name handler).panicked = true ↔ handler = none) ∧
      (handler = none → (h.On name handler).hooks = h) ∧
      (∀ f, handler = some f →
        (h.On name handler).hooks.lookup name = some (some f) ∧
        ∀ other, other ≠ name → (h.On name handler).hooks.lookup other = h.lookup other) ∧
      (∀ f1 f2 ctx,
        ((h.On name (some f1)).hooks.On name (some f2)).hooks.Fire name ctx =
          some ⟨(f2 ctx).1, (f2 ctx).2, ((h.On name (some f1)).hooks.On name (some f2)).hooks,
            [name]⟩) := by
  refine ⟨?_, ?_, ?_, ?_⟩
  · cases handler <;> simp [Hooks.On]
  · intro hn
    subst hn
    rfl
  · intro f hf
    subst hf
    exact ⟨Hooks.lookup_On_self h name f, fun other ho => Hooks.lookup_On_of_ne h name other f ho⟩
  · intro f1 f2 ctx
    exact Hooks.Fire_of_lookup _ name ctx f2 (Hooks.lookup_On_self _ name f2)

/-- Witness for C14: a nil handler on the sample table, then the handler of app.run.before
replaced. -/
theorem On_spec_witness :
    (sampleHooks.On (str "app.run.before") none).panicked = true ∧
      (sampleHooks.On (str "app.run.before") none).hooks = sampleHooks ∧
      ((sampleHooks.On (str "app.run.before") (some passHandler)).hooks.Fire
          (str "app.run.before") (sampleCtx (str "app.run.before"))).map
        (fun r => (r.stop, r.ctx, r.invoked))
        = some (false, sampleCtx (str "app.run.before"), [str "app.run.before"]) :=
  ⟨(On_spec sampleHooks (str "app.run.before") none).1.mpr rfl,
    (On_spec sampleHooks (str "app.run.before") none).2.1 rfl,
    by
      rw [Hooks.Fire_of_lookup _ _ _ passHandler
        ((On_spec sampleHooks (str "app.run.before") (some passHandler)).2.2.1 passHandler
          rfl).1]
      rfl⟩

/-- C15: when a handler is already registered for the name, AddHook leaves the table as it
was and does not panic, whatever the new handler is (nil included), so Fire still invokes the
earlier handler; when no handler is registered for the name, AddHook does exactly what On
does. -/
theorem AddHook_spec (h : Hooks) (name : GoString) (handler : HookFunc) :
    (∀ g, h.lookup name = some g →
        (h.AddHook name handler).hooks = h ∧ (h.AddHook name handler).panicked = false ∧
        ∀ ctx, (h.AddHook name handler).hooks.Fire name ctx = h.Fire name ctx) ∧
      (h.lookup name = none → h.AddHook name handler = h.On name handler) := by
  constructor
  · intro g hg
    have heq : h.AddHook name handler = ⟨h, false⟩ := by
      simp only [Hooks.AddHook, hg]
    rw [heq]
    exact ⟨rfl, rfl, fun _ => rfl⟩
  · intro hn
    simp only [Hooks.AddHook, hn]

/-- Witness for C15: AddHook on the sample table for the event that has a handler, with a nil
handler, and for an event that has none. -/
theorem AddHook_spec_witness :
    ((sampleHooks.AddHook (str "app.run.before") none).hooks = sampleHooks ∧
        (sampleHooks.AddHook (str "app.run.before") none).panicked = false ∧
        ∀ ctx, (sampleHooks.AddHook (str "app.run.before") none).hooks.Fire
          (str "app.run.before") ctx = sampleHooks.Fire (str "app.run.before") ctx) ∧
      sampleHooks.AddHook (str "app.run.after") (some passHandler)
        = sampleHooks.On (str "app.run.after") (some passHandler) :=
  ⟨(AddHook_spec sampleHooks (str "app.run.before") none).1 (some stopHandler) rfl,
    (AddHook_spec sampleHooks (str "app.run.after") (some passHandler)).2 rfl⟩


/-! ### Events on an unknown command -/

/-- The whole trace of a run whose first token is valid and names no registered command. -/
theorem App.Run_unknown_trace (k : Consts) (o : MapOrder) (osArgs : List GoString)
    (app : App) (args : List GoString) (t : GoString) (rest : List GoString)
    (hwf : app.WellFormed) (hfresh : app.inputName = [])
    (hp : (app.parseGlobalOpts args).1 = true)
    (ha : (app.coreParse args).FSetArgs = t :: rest)
    (hvalid : isValidCmdName t = true) (hhelp : t ≠ HelpCommand)
    (hun : app.IsCommand (app.ResolveAlias t) = false) (hgoon : k.GOON ≠ 0) :
    ∃ r, App.Run k o osArgs app (some args) = some r ∧ r.code = 0 ∧
      r.trace = (app.parseGlobalOpts args).2.2 ++
        [Effect.unknownCommandTips t (app.findSimilarCmd o t)] ++
        (if app.ExitOnEnd then [Effect.exit 0] else []) := by
  have hres := App.ResolveAlias_of_unregistered app t hwf hun
  rw [hres] at hun
  obtain ⟨f1, f2, f3, _, _, f6, f7⟩ := App.parseGlobalOpts_fields app args hp
  obtain ⟨app1, happ1⟩ : ∃ a, (app.parseGlobalOpts args).2.1 = a := ⟨_, rfl⟩
  rw [happ1] at f1 f2 f3 f6 f7
  have hres1 : app1.ResolveAlias t = t := by
    simpa only [App.ResolveAlias, f3] using hres
  have hun1 : app1.IsCommand t = false := by
    simpa only [App.IsCommand, f2] using hun
  have hprep := App.prepareRun_unknown k o app1 t rest (f1.trans ha) (f7.trans hfresh) hvalid hhelp
    hres1 hun1
  rw [App.findSimilarCmd_congr app1 app o t f2 f3] at hprep
  have hg : ¬ (0 : Int) = k.GOON := fun e => hgoon e.symm
  refine ⟨⟨0, app1,
    (app.parseGlobalOpts args).2.2 ++ [Effect.unknownCommandTips t (app.findSimilarCmd o t)]
      ++ (if app.ExitOnEnd then [Effect.exit 0] else [])⟩, ?_, rfl, rfl⟩
  simp only [App.Run, hp, happ1, hprep, ne_eq, hg, not_false_eq_true, if_true, App.exitOnEnd,
    Bool.true_eq_false, if_false, f6]

/-- The run of the unknown token buidl, with the single command build: the unknown-command
report is printed, the exit step is called, and the trace holds no fired event. -/
theorem Run_buidl_fires_no_event :
    (App.Run sampleConsts listedOrder [] buildApp (some [str "buidl"])).map RunResult.trace
        = some [Effect.unknownCommandTips (str "buidl") [], Effect.exit 0] ∧
      (App.Run sampleConsts listedOrder [] buildApp (some [str "buidl"])).map
        (fun r => r.trace.any Effect.isFire) = some false := by
  decide

/-- C16: on a fresh application, a first token that is valid, is not the help keyword and
resolves to no registered command makes Run print the unknown-command report and return
without firing any of the not-found events that ext.go declares (EvtAppCmdNotFound,
EvtCmdNotFound, EvtCmdSubNotFound): no handler registered for them is reached. -/
theorem Run_unknown_command_fires_no_not_found_event (k : Consts) (o : MapOrder)
    (osArgs : List GoString) (app : App) (args : List GoString) (t : GoString)
    (rest : List GoString)
    (hwf : app.WellFormed) (hfresh : app.inputName = [])
    (hp : (app.parseGlobalOpts args).1 = true)
    (ha : (app.coreParse args).FSetArgs = t :: rest)
    (hvalid : isValidCmdName t = true) (hhelp : t ≠ HelpCommand)
    (hun : app.IsCommand (app.ResolveAlias t) = false) (hgoon : k.GOON ≠ 0) :
    ∃ r, App.Run k o osArgs app (some args) = some r ∧
      Effect.unknownCommandTips t (app.findSimilarCmd o t) ∈ r.trace ∧
      ∀ p, Effect.fire EvtName.EvtAppCmdNotFound p ∉ r.trace ∧
        Effect.fire EvtName.EvtCmdNotFound p ∉ r.trace ∧
        Effect.fire EvtName.EvtCmdSubNotFound p ∉ r.trace := by
  obtain ⟨r, hr, _, htrace⟩ :=
    App.Run_unknown_trace k o osArgs app args t rest hwf hfresh hp ha hvalid hhelp hun hgoon
  have he := (App.parseGlobalOpts_ok app args hp).2
  have hno : ∀ e p, Effect.fire e p ∉ r.trace := by
    intro e p
    rw [htrace, he]
    split_ifs <;> simp
  exact ⟨r, hr, by rw [htrace]; simp, fun p => ⟨hno _ p, hno _ p, hno _ p⟩⟩

/-- Witness for C16: the single command build and the token buidl. -/
theorem Run_unknown_command_fires_no_not_found_event_witness :
    ∃ r, App.Run sampleConsts listedOrder [] buildApp (some [str "buidl"]) = some r ∧
      Effect.unknownCommandTips (str "buidl") (buildApp.findSimilarCmd listedOrder (str "buidl"))
        ∈ r.trace ∧
      ∀ p, Effect.fire EvtName.EvtAppCmdNotFound p ∉ r.trace ∧
        Effect.fire EvtName.EvtCmdNotFound p ∉ r.trace ∧
        Effect.fire EvtName.EvtCmdSubNotFound p ∉ r.trace :=
  Run_unknown_command_fires_no_not_found_event sampleConsts listedOrder [] buildApp
    [str "buidl"] (str "buidl") [] (by decide) rfl rfl rfl (by decide) (by decide) (by decide)
    (by decide)

/-! ### The help replacer -/

theorem strings.Replacer.lookup_eq_none (pairs : List (GoString × GoString)) (s : GoString)
    (h : ∀ p ∈ pairs, ¬ p.1 <+: s) : strings.Replacer.lookup pairs s = none := by
  induction pairs with
  | nil => rfl
  | cons p pairs ih =>
    obtain ⟨old, new⟩ := p
    have h1 : strings.startsWith s old = false := by
      cases hs : strings.startsWith s old with
      | false => rfl
      | true =>
        exact absurd ((strings.startsWith_iff s old).mp hs) (h (old, new) (List.mem_cons_self _ _))
    simp only [strings.Replacer.lookup, h1, Bool.false_eq_true, if_false]
    exact ih (fun q hq => h q (List.mem_cons_of_mem _ hq))

theorem strings.Replacer.Replace_of_no_match (pairs : List (GoString × GoString))
    (s : GoString) (h : ∀ p ∈ pairs, ¬ p.1 <:+: s) :
    strings.Replacer.Replace pairs s = s := by
  unfold strings.Replacer.Replace
  induction s with
  | nil => rfl
  | cons b s ih =>
    have h1 : strings.Replacer.lookup pairs (b :: s) = none :=
      strings.Replacer.lookup_eq_none pairs (b :: s)
        (fun p hp hpre => h p hp hpre.isInfix)
    have h2 : ∀ p ∈ pairs, ¬ p.1 <:+: s :=
      fun p hp hin => h p hp (List.infix_cons hin)
    simp only [strings.Replacer.replaceFrom, h1, ih h2]

/-- C17: when no placeholder of a registered name occurs in the input, ReplacePairs returns
the input unchanged, whatever the order in which the registered names are visited; in
particular when the input has no opening sequence of a placeholder at all. -/
theorem ReplacePairs_unchanged (hv : HelpReplacer)
    (order : List (GoString × GoString) → List (GoString × GoString)) (input : GoString)
    (hord : ∀ l, (order l).Perm l) :
    ((∀ n ∈ Map.keys hv.replaces, ¬ helpVar n <:+: input) →
        hv.ReplacePairs order input = input) ∧
      (¬ str "\x7b$" <:+: input → hv.ReplacePairs order input = input) := by
  constructor
  · intro hno
    unfold HelpReplacer.ReplacePairs
    split_ifs
    · rfl
    · apply strings.Replacer.Replace_of_no_match
      intro p hp
      obtain ⟨q, hq, rfl⟩ := List.mem_map.mp hp
      have hq2 : q ∈ hv.replaces := ((hord _).mem_iff).mp hq
      exact hno q.1 (List.mem_map.mpr ⟨q, hq2, rfl⟩)
  · intro hno
    have h1 : strings.Contains input (str "\x7b$") = false := by
      cases hc : strings.Contains input (str "\x7b$") with
      | false => rfl
      | true => exact absurd ((strings.Contains_iff _ _).mp hc) hno
    simp only [HelpReplacer.ReplacePairs, h1, if_true]

/-- Witness for C17: the sample replacer on a text with an unregistered placeholder and on a
text without placeholder. -/
theorem ReplacePairs_unchanged_witness :
    sampleReplacer.ReplacePairs List.reverse (str "run \x7b$cmd\x7d now")
        = str "run \x7b$cmd\x7d now" ∧
      sampleReplacer.ReplacePairs List.reverse (str "plain text") = str "plain text" :=
  ⟨(ReplacePairs_unchanged sampleReplacer List.reverse (str "run \x7b$cmd\x7d now")
      (fun l => List.reverse_perm l)).1 (by decide),
    (ReplacePairs_unchanged sampleReplacer List.reverse (str "plain text")
      (fun l => List.reverse_perm l)).2 (by decide)⟩


/-! ### Name validators -/

theorem regexp.run_nil (s : GoString) : regexp.run [] s = false := by
  induction s with
  | nil => rfl
  | cons b s ih => simpa [regexp.run] using ih

theorem regexp.run_star (c : regexp.Class) (s : GoString) :
    regexp.run [[regexp.Item.star c]] s = s.all c.mem := by
  induction s with
  | nil => simp [regexp.run, regexp.atEnd]
  | cons b s ih =>
    cases hb : c.mem b
    · simp [regexp.run, regexp.step, hb, regexp.run_nil]
    · simp [regexp.run, regexp.step, hb, ih]

/-- A pattern made of one class and a starred class matches the strings whose first byte is in
the first class and whose other bytes are in the second. -/
theorem regexp.MatchString_one_star (c1 c2 : regexp.Class) (s : GoString) :
    regexp.MatchString [regexp.Item.one c1, regexp.Item.star c2] s = true ↔
      ∃ b rest, s = b :: rest ∧ c1.mem b = true ∧ ∀ c ∈ rest, c2.mem c = true := by
  cases s with
  | nil => simp [regexp.MatchString, regexp.run, regexp.atEnd]
  | cons b rest =>
    cases hb : c1.mem b
    · simp [regexp.MatchString, regexp.run, regexp.step, hb, regexp.run_nil]
    · simp only [regexp.MatchString, regexp.run, List.flatMap_cons, List.flatMap_nil,
        regexp.step, hb, if_true, List.append_nil, regexp.run_star, List.all_eq_true]
      constructor
      · intro h
        exact ⟨b, rest, rfl, hb, h⟩
      · rintro ⟨b2, rest2, heq, _, h⟩
        obtain ⟨_, rfl⟩ := List.cons.inj heq
        exact h

theorem regexp.letters_mem (b : UInt8) : regexp.letters.mem b = helper.isLetter b := by
  simp [regexp.Class.mem, regexp.letters, helper.isLetter]

theorem regexp.word_mem (b : UInt8) : regexp.word.mem b = true ↔ helper.isWord b = true := by
  have h95 : (95 ≤ b ∧ b ≤ 95) ↔ b = 95 :=
    ⟨fun h => UInt8.le_antisymm h.2 h.1, fun h => by subst h; decide⟩
  simp only [regexp.Class.mem, regexp.word, helper.isWord, helper.isLetter, List.any_cons,
    List.any_nil, Bool.or_false, Bool.or_eq_true, Bool.and_eq_true, decide_eq_true_eq,
    beq_iff_eq, h95]
  tauto

theorem regexp.word_hyphen_mem (b : UInt8) :
    (regexp.word ++ [(45, 45)]).mem b = true ↔ (helper.isWord b = true ∨ b = 45) := by
  have h45 : (45 ≤ b ∧ b ≤ 45) ↔ b = 45 :=
    ⟨fun h => UInt8.le_antisymm h.2 h.1, fun h => by subst h; decide⟩
  have hw := regexp.word_mem b
  simp only [regexp.Class.mem] at hw ⊢
  simp only [List.any_append, Bool.or_eq_true, hw, List.any_cons, List.any_nil, Bool.or_false,
    Bool.and_eq_true, decide_eq_true_eq, h45]

theorem regexp.word_colon_hyphen_mem (b : UInt8) :
    (regexp.word ++ [(58, 58), (45, 45)]).mem b = true ↔
      (helper.isWord b = true ∨ b = 45 ∨ b = 58) := by
  have h45 : (45 ≤ b ∧ b ≤ 45) ↔ b = 45 :=
    ⟨fun h => UInt8.le_antisymm h.2 h.1, fun h => by subst h; decide⟩
  have h58 : (58 ≤ b ∧ b ≤ 58) ↔ b = 58 :=
    ⟨fun h => UInt8.le_antisymm h.2 h.1, fun h => by subst h; decide⟩
  have hw := regexp.word_mem b
  simp only [regexp.Class.mem] at hw ⊢
  simp only [List.any_append, Bool.or_eq_true, hw, List.any_cons, List.any_nil, Bool.or_false,
    Bool.and_eq_true, decide_eq_true_eq, h45, h58]
  tauto

theorem helper.IsGoodCmdName_iff (name : GoString) :
    helper.IsGoodCmdName name = true ↔ helper.SpecGoodName name := by
  unfold helper.IsGoodCmdName helper.goodCmdName helper.SpecGoodName
  rw [regexp.MatchString_one_star]
  simp only [regexp.letters_mem, regexp.word_hyphen_mem]

theorem helper.IsGoodCmdId_iff (name : GoString) :
    helper.IsGoodCmdId name = true ↔ helper.SpecGoodCmdId name := by
  unfold helper.IsGoodCmdId helper.goodCmdId helper.SpecGoodCmdId
  rw [regexp.MatchString_one_star]
  simp only [regexp.letters_mem, regexp.word_colon_hyphen_mem]

/-- C18: IsGoodName and IsGoodCmdName accept exactly the non-empty strings that start with an
ASCII letter and go on with ASCII letters, digits, underscores and hyphens, and agree on every
input; the empty string and every string with a space, a newline or a colon are rejected;
IsGoodCmdId accepts exactly the same set with the colon allowed after the first character, so
every good command name is a good command id, and group:action is a good id and not a good
name. -/
theorem validators_spec (name : GoString) :
    (helper.IsGoodName name = true ↔ helper.SpecGoodName name) ∧
      (helper.IsGoodCmdName name = true ↔ helper.SpecGoodName name) ∧
      helper.IsGoodName name = helper.IsGoodCmdName name ∧
      (helper.IsGoodCmdId name = true ↔ helper.SpecGoodCmdId name) ∧
      (helper.IsGoodCmdName name = true → helper.IsGoodCmdId name = true) ∧
      helper.IsGoodName [] = false ∧
      ((32 ∈ name ∨ 10 ∈ name ∨ 58 ∈ name) → helper.IsGoodName name = false) ∧
      helper.IsGoodCmdId (str "group:action") = true ∧
      helper.IsGoodName (str "group:action") = false := by
  have hsame : helper.IsGoodName name = helper.IsGoodCmdName name := rfl
  have hname := helper.IsGoodCmdName_iff name
  refine ⟨by rw [hsame]; exact hname, hname, hsame, helper.IsGoodCmdId_iff name, ?_, by decide,
    ?_, by decide, by decide⟩
  · intro h
    obtain ⟨b, rest, hn, hb, hrest⟩ := hname.mp h
    refine (helper.IsGoodCmdId_iff name).mpr ⟨b, rest, hn, hb, fun c hc => ?_⟩
    rcases hrest c hc with h1 | h1
    · exact Or.inl h1
    · exact Or.inr (Or.inl h1)
  · intro hbad
    cases hg : helper.IsGoodName name with
    | false => rfl
    | true =>
      exfalso
      rw [hsame] at hg
      obtain ⟨b, rest, hn, hb, hrest⟩ := hname.mp hg
      subst hn
      have key : ∀ x : UInt8, (x = 32 ∨ x = 10 ∨ x = 58) → x ∈ b :: rest → False := by
        intro x hx hmem
        have hl : helper.isLetter x = false := by
          rcases hx with rfl | rfl | rfl <;> decide
        have hw : ¬ (helper.isWord x = true ∨ x = 45) := by
          rcases hx with rfl | rfl | rfl <;> decide
        rcases List.mem_cons.mp hmem with h1 | h1
        · rw [h1, hb] at hl
          exact absurd hl (by decide)
        · exact hw (hrest x h1)
      rcases hbad with h1 | h1 | h1
      · exact key 32 (Or.inl rfl) h1
      · exact key 10 (Or.inr (Or.inl rfl)) h1
      · exact key 58 (Or.inr (Or.inr rfl)) h1

/-! ### Unresolved tokens leave the application as it was -/

/-- C19: when the first token fails the name pattern, findCommandName returns the empty name,
whatever the alias table holds; when the token passes it and the name it resolves to is not
registered, findCommandName returns that resolved name; in both cases the application, with
its remaining arguments and its recorded input name, is left exactly as it was. -/
theorem findCommandName_leaves_app (app : App) (t : GoString) (rest : List GoString) :
    (isValidCmdName t = false →
        app.findCommandName (t :: rest) = ([], app) ∧
        ∀ aliases, ({ app with cmdAliases := aliases } : App).findCommandName (t :: rest)
          = ([], { app with cmdAliases := aliases })) ∧
      (isValidCmdName t = true → app.IsCommand (app.ResolveAlias t) = false →
        app.findCommandName (t :: rest) = (app.ResolveAlias t, app)) ∧
      ((isValidCmdName t = false ∨ app.IsCommand (app.ResolveAlias t) = false) →
        (app.findCommandName (t :: rest)).2.args = app.args ∧
        (app.findCommandName (t :: rest)).2.inputName = app.inputName) := by
  have h1 : ∀ a : App, isValidCmdName t = false → a.findCommandName (t :: rest) = ([], a) := by
    intro a hv
    simp only [App.findCommandName, hv, Bool.false_eq_true, if_false]
  have h2 : isValidCmdName t = true → app.IsCommand (app.ResolveAlias t) = false →
      app.findCommandName (t :: rest) = (app.ResolveAlias t, app) := by
    intro hv hun
    simp only [App.findCommandName, hv, hun, if_true, Bool.false_eq_true, if_false]
  refine ⟨fun hv => ⟨h1 app hv, fun aliases => h1 _ hv⟩, h2, ?_⟩
  intro h
  cases hv : isValidCmdName t with
  | false => rw [h1 app hv]; exact ⟨rfl, rfl⟩
  | true =>
    rcases h with h | h
    · rw [hv] at h
      exact absurd h (by decide)
    · rw [h2 hv h]; exact ⟨rfl, rfl⟩

/-- Witness for C19: in the sample application, the token -x fails the pattern and the token
buidl names no command. -/
theorem findCommandName_leaves_app_witness :
    sampleApp.findCommandName [str "-x", str "b"] = ([], sampleApp) ∧
      sampleApp.findCommandName [str "buidl", str "b"]
        = (sampleApp.ResolveAlias (str "buidl"), sampleApp) ∧
      (sampleApp.findCommandName [str "buidl", str "b"]).2.args = sampleApp.args ∧
      (sampleApp.findCommandName [str "buidl", str "b"]).2.inputName = sampleApp.inputName :=
  ⟨((findCommandName_leaves_app sampleApp (str "-x") [str "b"]).1 (by decide)).1,
    (findCommandName_leaves_app sampleApp (str "buidl") [str "b"]).2.1 (by decide) (by decide),
    (findCommandName_leaves_app sampleApp (str "buidl") [str "b"]).2.2 (Or.inr (by decide))⟩


/-! ### Completeness of the suggestions -/

theorem isSimilar_eq_decide (t c : GoString) :
    isSimilar t c = decide (ContainmentRule t c) := by
  rw [Bool.eq_iff_iff, isSimilar_iff]
  simp [ContainmentRule]

theorem findSimilarCmd.fromNames_eq (input : GoString) (l ss : List GoString)
    (h : ss.length < 5) :
    findSimilarCmd.fromNames input l ss = (ss ++ l.filter (isSimilar input)).take 5 := by
  induction l generalizing ss with
  | nil =>
    simp only [findSimilarCmd.fromNames, List.filter_nil, List.append_nil]
    exact (List.take_of_length_le (by omega)).symm
  | cons name rest ih =>
    simp only [findSimilarCmd.fromNames]
    cases hs : isSimilar input name with
    | true =>
      simp only [if_true, List.filter_cons, hs]
      have happ : ss ++ name :: List.filter (isSimilar input) rest
          = (ss ++ [name]) ++ List.filter (isSimilar input) rest := by simp
      rw [happ]
      split_ifs with h5
      · rw [List.take_append_of_le_length (by omega)]
        exact (List.take_of_length_le (by omega)).symm
      · apply ih
        simp only [List.length_append, List.length_singleton] at h5 ⊢
        omega
    | false =>
      simp only [Bool.false_eq_true, if_false, List.filter_cons, hs]
      split_ifs with h5
      · omega
      · exact ih ss h

theorem findSimilarCmd.fromAliases_eq (input : GoString) (l ss : List GoString)
    (h : ss.length ≤ 5) :
    findSimilarCmd.fromAliases input l ss = (ss ++ l.filter (isSimilar input)).take 5 := by
  induction l generalizing ss with
  | nil =>
    simp only [findSimilarCmd.fromAliases, List.filter_nil, List.append_nil]
    exact (List.take_of_length_le h).symm
  | cons name rest ih =>
    simp only [findSimilarCmd.fromAliases]
    split_ifs with h5 hs
    · rw [List.take_append_of_le_length (by omega)]
      exact (List.take_of_length_le (by omega)).symm
    · have happ : ss ++ List.filter (isSimilar input) (name :: rest)
          = (ss ++ [name]) ++ List.filter (isSimilar input) rest := by
        simp [List.filter_cons, hs]
      rw [happ]
      apply ih
      simp only [List.length_append, List.length_singleton]
      omega
    · have happ : List.filter (isSimilar input) (name :: rest)
          = List.filter (isSimilar input) rest := by
        simp [List.filter_cons, hs]
      rw [happ]
      exact ih ss h

theorem take_take_append {α : Type} (n : Nat) (xs ys : List α) :
    ((xs.take n) ++ ys).take n = (xs ++ ys).take n := by
  by_cases h : xs.length ≤ n
  · rw [List.take_of_length_le h]
  · have h1 : n ≤ xs.length := by omega
    rw [List.take_append_of_le_length (by simp; omega), List.take_take, Nat.min_self,
      List.take_append_of_le_length h1]

/-- The result of `findSimilarCmd`: the first five matching entries, the names (with help) in
visiting order before the aliases in visiting order. -/
theorem App.findSimilarCmd_eq (app : App) (o : MapOrder) (t : GoString) :
    app.findSimilarCmd o t =
      ((o.names (withHelp app.CmdNameMap) ++ o.aliases (Map.keys app.cmdAliases)).filter
        (isSimilar t)).take 5 := by
  unfold App.findSimilarCmd
  simp only
  rw [findSimilarCmd.fromNames_eq t _ [] (by simp), List.nil_append,
    findSimilarCmd.fromAliases_eq t _ _ (by simp [List.length_take]),
    take_take_append, List.filter_append]

/-- C20: among the registered names with the keyword help and the registered aliases, when
fewer than five entries satisfy the containment rule relative to the input, the result of
findSimilarCmd holds every one of them, once per table entry, and nothing else; when five or
more entries satisfy it, the result has exactly five entries. -/
theorem findSimilarCmd_complete (app : App) (o : MapOrder) (t : GoString) (ho : o.Valid) :
    (((withHelp app.CmdNameMap ++ Map.keys app.cmdAliases).filter
          (fun c => decide (ContainmentRule t c))).length < 5 →
        (app.findSimilarCmd o t).Perm
          ((withHelp app.CmdNameMap ++ Map.keys app.cmdAliases).filter
            (fun c => decide (ContainmentRule t c)))) ∧
      (5 ≤ ((withHelp app.CmdNameMap ++ Map.keys app.cmdAliases).filter
          (fun c => decide (ContainmentRule t c))).length →
        (app.findSimilarCmd o t).length = 5) := by
  have hfun : (fun c => decide (ContainmentRule t c)) = isSimilar t :=
    funext (fun c => (isSimilar_eq_decide t c).symm)
  have hperm : ((o.names (withHelp app.CmdNameMap) ++ o.aliases (Map.keys app.cmdAliases)).filter
      (isSimilar t)).Perm
      ((withHelp app.CmdNameMap ++ Map.keys app.cmdAliases).filter (isSimilar t)) :=
    List.Perm.filter _ (List.Perm.append (ho.1 _) (ho.2 _))
  rw [hfun, App.findSimilarCmd_eq]
  constructor
  · intro hlt
    rw [List.take_of_length_le (by rw [hperm.length_eq]; omega)]
    exact hperm
  · intro hge
    rw [List.length_take, hperm.length_eq]
    omega

/-- Witness for C20: the sample application with input bui, where two entries match, and six
commands that all match the input a; keys visited in reverse. -/
theorem findSimilarCmd_complete_witness :
    (sampleApp.findSimilarCmd reversedOrder (str "bui")).Perm
        ((withHelp sampleApp.CmdNameMap ++ Map.keys sampleApp.cmdAliases).filter
          (fun c => decide (ContainmentRule (str "bui") c))) ∧
      (sixApp.findSimilarCmd reversedOrder (str "a")).length = 5 :=
  ⟨(findSimilarCmd_complete sampleApp reversedOrder (str "bui")
      ⟨fun l => List.reverse_perm l, fun l => List.reverse_perm l⟩).1 (by decide),
    (findSimilarCmd_complete sixApp reversedOrder (str "a")
      ⟨fun l => List.reverse_perm l, fun l => List.reverse_perm l⟩).2 (by decide)⟩


/-! ### The GOON signal -/

/-- The two ways `findCommandName` ends: the application is untouched, or the first token is
valid and resolves to a registered command, and is stripped and recorded. -/
theorem App.findCommandName_cases (app : App) (args : List GoString) :
    (app.findCommandName args).2 = app ∨
      ∃ t rest, args = t :: rest ∧ isValidCmdName t = true ∧
        app.IsCommand (app.ResolveAlias t) = true ∧
        app.findCommandName args =
          (app.ResolveAlias t, { app with args := rest, inputName := t }) := by
  cases args with
  | nil =>
    left
    simp only [App.findCommandName]
    split_ifs <;> rfl
  | cons t rest =>
    cases hv : isValidCmdName t with
    | false =>
      left
      simp only [App.findCommandName, hv, Bool.false_eq_true, if_false]
    | true =>
      cases hc : app.IsCommand (app.ResolveAlias t) with
      | false =>
        left
        simp only [App.findCommandName, hv, hc, if_true, Bool.false_eq_true, if_false]
      | true =>
        right
        refine ⟨t, rest, rfl, hv, hc, ?_⟩
        simp only [App.findCommandName, hv, hc, if_true]

/-- The branches of `prepareRun` that end the run return 0 or ERR, never GOON. -/
theorem App.prepareRun_ne_GOON (k : Consts) (o : MapOrder) (app : App) (name : GoString)
    (app1 : App) (h0 : k.GOON ≠ 0) (h1 : k.GOON ≠ k.ERR)
    (hfind : app.findCommandName app.args = (name, app1))
    (hcond : name = HelpCommand ∨ name = [] ∨ app1.inputName = []) :
    (app.prepareRun k o).1 ≠ k.GOON := by
  have hz : ∀ c : Int, (c = 0 ∨ c = k.ERR) → c ≠ k.GOON := by
    intro c hc e
    rcases hc with hc | hc
    · exact h0 (e.symm.trans hc)
    · exact h1 (e.symm.trans hc)
  simp only [App.prepareRun, hfind]
  by_cases hh : name = HelpCommand
  · simp only [hh, if_true]
    split
    · exact hz _ (Or.inl rfl)
    · exact hz _ (App.showCommandHelp_code k app1 _).1
  · simp only [hh, if_false]
    by_cases he : name = []
    · simp only [he, if_true]
      split
      · exact hz _ (App.doRunFunc_code k _ _).1
      · exact hz _ (Or.inl rfl)
    · simp only [he, if_false]
      have hi : app1.inputName = [] := by
        rcases hcond with h | h | h
        · exact absurd h hh
        · exact absurd h he
        · exact h
      simp only [hi, if_true]
      exact hz _ (Or.inl rfl)

/-- The last branch of `prepareRun`: the name is stored and GOON is returned. -/
theorem App.prepareRun_eq_GOON (k : Consts) (o : MapOrder) (app : App) (name : GoString)
    (app1 : App) (hfind : app.findCommandName app.args = (name, app1))
    (hh : name ≠ HelpCommand) (he : name ≠ []) (hi : app1.inputName ≠ []) :
    app.prepareRun k o = (k.GOON, name, { app1 with commandName := name }, []) := by
  simp only [App.prepareRun, hfind, hh, he, hi, if_false]

/-- The lookup of `doRunCmd` succeeds for a name that has a command, and `doRunCmd` returns. -/
theorem App.doRunCmd_isSome (k : Consts) (app : App) (name : GoString) (args : List GoString)
    (cmd : Gcli.Command) (h : app.Command name = some cmd) :
    (app.doRunCmd k name args).isSome = true := by
  simp only [App.doRunCmd, h]
  cases cmd.innerDispatch args <;> rfl

/-- On an application entered with an empty input name, `prepareRun` returns GOON only after
`findCommandName` has resolved the first token to a registered command. -/
theorem App.prepareRun_GOON (k : Consts) (o : MapOrder) (app : App)
    (hfresh : app.inputName = []) (h0 : k.GOON ≠ 0) (h1 : k.GOON ≠ k.ERR)
    (hg : (app.prepareRun k o).1 = k.GOON) :
    ∃ t rest, app.args = t :: rest ∧ isValidCmdName t = true ∧
      app.IsCommand (app.ResolveAlias t) = true ∧
      app.prepareRun k o = (k.GOON, app.ResolveAlias t,
        { app with args := rest, inputName := t, commandName := app.ResolveAlias t }, []) := by
  rcases App.findCommandName_cases app app.args with hA | ⟨t, rest, hargs, hv, hc, hfind⟩
  · exfalso
    have hfind : app.findCommandName app.args = ((app.findCommandName app.args).1, app) :=
      Prod.ext rfl hA
    exact App.prepareRun_ne_GOON k o app _ app h0 h1 hfind (Or.inr (Or.inr hfresh)) hg
  · refine ⟨t, rest, hargs, hv, hc, ?_⟩
    by_cases hh : app.ResolveAlias t = HelpCommand
    · exact absurd hg (App.prepareRun_ne_GOON k o app _ _ h0 h1 hfind (Or.inl hh))
    · by_cases he : app.ResolveAlias t = []
      · exact absurd hg (App.prepareRun_ne_GOON k o app _ _ h0 h1 hfind (Or.inr (Or.inl he)))
      · exact App.prepareRun_eq_GOON k o app _ _ hfind hh he (isValidCmdName_ne_nil t hv)

/-- An input name left over from an earlier run lets an unregistered name through: `prepareRun`
returns GOON for the token buidl and `Run` ends in the panic of the nil command handle. -/
theorem Run_stale_inputName_panics :
    (App.Run sampleConsts listedOrder [] staleApp (some [str "buidl"])).isNone = true := by
  decide

/-- C21: on an application entered with an empty input name, whenever prepareRun returns the
GOON signal, the name it returns is a registered command, is the first typed token after alias
resolution and is stored as the current command name; the command lookup of doRunCmd then
finds a command, so Run never ends in the panic of a missing command. -/
theorem prepareRun_GOON_registered (k : Consts) (o : MapOrder) (app : App)
    (hfresh : app.inputName = []) (h0 : k.GOON ≠ 0) (h1 : k.GOON ≠ k.ERR) :
    ((app.prepareRun k o).1 = k.GOON →
      ∃ t rest, app.args = t :: rest ∧
        (app.prepareRun k o).2.1 = app.ResolveAlias t ∧
        app.IsCommand (app.prepareRun k o).2.1 = true ∧
        (app.prepareRun k o).2.2.1.commandName = (app.prepareRun k o).2.1 ∧
        (app.prepareRun k o).2.2.1.inputName = t ∧
        (app.prepareRun k o).2.2.1.args = rest ∧
        ∃ cmd, (app.prepareRun k o).2.2.1.Command (app.prepareRun k o).2.1 = some cmd ∧
          ((app.prepareRun k o).2.2.1.doRunCmd k (app.prepareRun k o).2.1
            (app.prepareRun k o).2.2.1.args).isSome = true) ∧
      ∀ osArgs args, (App.Run k o osArgs app args).isSome = true := by
  have hlookup : ∀ a : App, a.inputName = [] → (a.prepareRun k o).1 = k.GOON →
      ∃ t rest, a.args = t :: rest ∧
        (a.prepareRun k o).2.1 = a.ResolveAlias t ∧
        a.IsCommand (a.prepareRun k o).2.1 = true ∧
        (a.prepareRun k o).2.2.1.commandName = (a.prepareRun k o).2.1 ∧
        (a.prepareRun k o).2.2.1.inputName = t ∧
        (a.prepareRun k o).2.2.1.args = rest ∧
        ∃ cmd, (a.prepareRun k o).2.2.1.Command (a.prepareRun k o).2.1 = some cmd ∧
          ((a.prepareRun k o).2.2.1.doRunCmd k (a.prepareRun k o).2.1
            (a.prepareRun k o).2.2.1.args).isSome = true := by
    intro a ha hg
    obtain ⟨t, rest, hargs, _, hc, hprep⟩ := App.prepareRun_GOON k o a ha h0 h1 hg
    rw [hprep]
    have hsome : (Map.get? a.commands (a.ResolveAlias t)).isSome = true := hc
    obtain ⟨cmd, hcmd⟩ := Option.isSome_iff_exists.mp hsome
    exact ⟨t, rest, hargs, rfl, hc, rfl, rfl, rfl, cmd, hcmd,
      App.doRunCmd_isSome k _ _ _ cmd hcmd⟩
  refine ⟨hlookup app hfresh, ?_⟩
  intro osArgs args
  unfold App.Run
  simp only
  generalize (match args with
    | none => osArgs
    | some a => a) = args1
  cases hp : (app.parseGlobalOpts args1).1 with
  | false => simp
  | true =>
    simp only [Bool.true_eq_false, if_false]
    by_cases hg : ((app.parseGlobalOpts args1).2.1.prepareRun k o).1 = k.GOON
    · have hin := (App.parseGlobalOpts_fields app args1 hp).2.2.2.2.2.2
      obtain ⟨_, _, _, _, _, _, _, _, _, _, hrun⟩ :=
        hlookup (app.parseGlobalOpts args1).2.1 (hin.trans hfresh) hg
      simp only [ne_eq, hg, not_true_eq_false, if_false]
      obtain ⟨d, hd⟩ := Option.isSome_iff_exists.mp hrun
      simp only [hd, Option.isSome_some]
    · simp only [ne_eq, hg, not_false_eq_true, if_true, Option.isSome_some]

/-- Witness for C21: on the sample application the alias b gives GOON with the name build. -/
theorem prepareRun_GOON_registered_witness :
    ((({ sampleApp with args := [str "b", str "-x"] } : App).prepareRun sampleConsts
        listedOrder).1 = sampleConsts.GOON →
      ∃ t rest, ({ sampleApp with args := [str "b", str "-x"] } : App).args = t :: rest ∧
        (({ sampleApp with args := [str "b", str "-x"] } : App).prepareRun sampleConsts
          listedOrder).2.1
          = ({ sampleApp with args := [str "b", str "-x"] } : App).ResolveAlias t) ∧
      (({ sampleApp with args := [str "b", str "-x"] } : App).prepareRun sampleConsts
        listedOrder).1 = sampleConsts.GOON ∧
      (App.Run sampleConsts listedOrder [] sampleApp (some [str "b", str "-x"])).isSome = true := by
  have h := prepareRun_GOON_registered sampleConsts listedOrder
    ({ sampleApp with args := [str "b", str "-x"] } : App) rfl (by decide) (by decide)
  refine ⟨fun hg => ?_, by decide,
    (prepareRun_GOON_registered sampleConsts listedOrder sampleApp rfl (by decide)
      (by decide)).2 [] (some [str "b", str "-x"])⟩
  obtain ⟨t, rest, h1, h2, _⟩ := h.1 hg
  exact ⟨t, rest, h1, h2⟩

end Gcli
